import Mathlib

/-!
# A verification model of the gpr G-code parser

This file gives a shallow embedding of the gpr repository
(`src/gcode_program.h`, `src/gcode_program.cpp`, `src/parser.h`,
`src/parser.cpp`) and proves properties of the embedded program.

Modelling conventions:
* C++ `std::string` is modelled by `List Char`.
* C++ `double` is modelled by `ℚ`; `std::stod` is modelled exactly on the
  decimal token strings the lexer can produce (digits, `.`, `-`).  The
  default `operator<<` rendering of a double rounds to six significant
  digits and switches to scientific notation outside magnitudes
  `[10 ^ (-4 : ℤ), 10 ^ 6)`; the model renders the canonical exact decimal,
  which coincides with the stream output precisely on the domain delimited
  by `fits_double_format` (at most six significant digits, fixed-notation
  magnitude range), and every wellformedness hypothesis below confines the
  rendering theorems to that domain.  Outside it the stream output also
  depends on IEEE-754 binary rounding, which this embedding does not model.
  C++ `int` is modelled by `ℤ` (overflow is out of scope).
* The fail-fast `assert(false)` / exception exits of the source are modelled
  by an error-returning result type `Res`, with one error constructor per
  error kind of the source design (lexical error on an unmatched closer,
  unexpected token, unknown address letter, numeric conversion failure,
  wrong-typed accessor).
* Out-of-bounds reads of the cursor streams (`s.next()` past the end), which
  are undefined behaviour in the C++ source, are modelled as the designed
  error `unexpectedToken`.
* The `union addr_value` with its `address_type` tag is modelled as a sum:
  the active member always corresponds to the tag, which is the construction
  invariant of `make_int_address` / `make_double_address`.
-/

namespace gpr

/-- The error kinds of the source design (§7 of the design):
unmatched closing delimiter at lex time, missing/ill-shaped token,
unclassifiable address letter, numeric conversion failure, and the
wrong-typed accessor contract violation. -/
inductive ParseErr : Type where
  | lexError : ParseErr
  | unexpectedToken : ParseErr
  | unknownAddressLetter : ParseErr
  | numericFormat : ParseErr
  | typeMismatch : ParseErr
deriving DecidableEq, Repr

/-- Result of a fallible operation: the C++ source aborts on failure
(`assert(false)` or an uncaught exception); the model returns the error. -/
inductive Res (α : Type) : Type where
  | ok (val : α) : Res α
  | err (e : ParseErr) : Res α
deriving DecidableEq, Repr

/-- `is_num_char` from `parser.cpp`: a character that may appear inside a
numeric token (digit, decimal point, or minus sign). -/
def is_num_char (c : Char) : Bool :=
  c.isDigit || c == '.' || c == '-'

/-- The whitespace test of `ignore_whitespace` in `parser.cpp`
(`isspace(c) || c == '\r'`, with the C locale's `isspace` set). -/
def isspace_c (c : Char) : Bool :=
  c == ' ' || c == '\t' || c == '\n' || c == '\x0b' || c == '\x0c' || c == '\r'

/-- `address_type` from `gcode_program.h`. -/
inductive address_type : Type where
  | integer : address_type
  | double : address_type
deriving DecidableEq, Repr

/-- The `addr` class of `gcode_program.h`: a tagged value that is either an
integer or a floating-point number.  The C++ `union addr_value` plus
`address_type` tag is modelled as a sum, so the active member always matches
the tag (the construction invariant of the source factories). -/
inductive addr : Type where
  | intA (i : ℤ) : addr
  | dblA (d : ℚ) : addr
deriving DecidableEq, Repr

/-- `addr::tp`. -/
def addr.tp : addr → address_type
  | .intA _ => .integer
  | .dblA _ => .double

/-- `addr::int_value`: asserts the tag is integer, then reads the value.
The assertion failure is the `typeMismatch` contract violation. -/
def addr.int_value : addr → Res ℤ
  | .intA i => .ok i
  | .dblA _ => .err .typeMismatch

/-- `addr::double_value`: asserts the tag is double, then reads the value. -/
def addr.double_value : addr → Res ℚ
  | .dblA d => .ok d
  | .intA _ => .err .typeMismatch

/-- `make_int_address` from `gcode_program.cpp`. -/
def make_int_address (i : ℤ) : addr := .intA i

/-- `make_double_address` from `gcode_program.cpp`. -/
def make_double_address (d : ℚ) : addr := .dblA d

/-- The `chunk` class of `gcode_program.h`: one lexical element of a block.
The C++ single class with a `chunk_type` tag and all-fields-present payload
is modelled as a sum over the four variants, each holding exactly the fields
its accessors may legally read. -/
inductive chunk : Type where
  | comment (left_delim : Char) (right_delim : Char) (text : List Char) : chunk
  | wordAddress (wd : Char) (adr : addr) : chunk
  | percent : chunk
  | word (single_word : Char) : chunk
deriving DecidableEq, Repr

/-- `make_isolated_word` from `gcode_program.cpp`. -/
def make_isolated_word (c : Char) : chunk := .word c

/-- `make_percent_chunk` from `gcode_program.cpp`. -/
def make_percent_chunk : chunk := .percent

/-- `make_word_int` from `gcode_program.cpp`. -/
def make_word_int (c : Char) (i : ℤ) : chunk := .wordAddress c (make_int_address i)

/-- `make_word_double` from `gcode_program.cpp`. -/
def make_word_double (c : Char) (d : ℚ) : chunk := .wordAddress c (make_double_address d)

/-- The `block` class of `gcode_program.h`: one line of a program.
Fields exactly as in the source: presence flag and value of the line number
(`-1` when absent, set by the no-line-number constructor), the `/` block-skip
deletion flag, and the ordered chunk sequence.  The optional `debug_text`
cache is a render-derived convenience and carries no extra state. -/
structure block : Type where
  has_line_no : Bool
  line_no : ℤ
  slashed_out : Bool
  chunks : List chunk
deriving DecidableEq, Repr

/-- `block::is_deleted`. -/
def block.is_deleted (b : block) : Bool := b.slashed_out

/-- `block::has_line_number`. -/
def block.has_line_number (b : block) : Bool := b.has_line_no

/-- Digit character value, as used by `stoi`/`stod` on a digit. -/
def digit_val (c : Char) : ℕ := c.toNat - 48

/-- Value of a digit string, most significant digit first. -/
def val_nat (ds : List Char) : ℕ :=
  ds.foldl (fun a c => 10 * a + digit_val c) 0

/-- Model of `std::stoi` on the token strings the lexer can produce:
optional sign, then the longest digit prefix; at least one digit is
required, and trailing non-digit characters are ignored. -/
def stoi_model (t : List Char) : Res ℤ :=
  let core : ℤ → List Char → Res ℤ := fun sgn r =>
    let ds := r.takeWhile Char.isDigit
    if ds.length = 0 then .err .numericFormat else .ok (sgn * (val_nat ds : ℤ))
  match t with
  | '-' :: r => core (-1) r
  | '+' :: r => core 1 r
  | _ => core 1 t

/-- Model of `std::stod` on the token strings the lexer can produce (the
characters are only digits, `.` and `-`): optional sign, longest digit
prefix, optionally a decimal point and a further digit run; at least one
digit is required overall, and trailing unconvertible characters are
ignored, as `stod` ignores them.  The value `±(I + F / 10^|F|)` is built as
one quotient `±(I·10^|F| + F) / 10^|F|` via `mkRat`, which is the same
rational. -/
def stod_model (t : List Char) : Res ℚ :=
  let core : Bool → List Char → Res ℚ := fun neg r =>
    let I := r.takeWhile Char.isDigit
    let r2 := r.dropWhile Char.isDigit
    match r2 with
    | '.' :: r3 =>
      let F := r3.takeWhile Char.isDigit
      if I.length = 0 ∧ F.length = 0 then .err .numericFormat
      else
        let n : ℤ := (val_nat I : ℤ) * (10 : ℤ) ^ F.length + (val_nat F : ℤ)
        .ok (mkRat (if neg then -n else n) ((10 : ℕ) ^ F.length))
    | _ =>
      if I.length = 0 then .err .numericFormat
      else .ok (mkRat (if neg then -(val_nat I : ℤ) else (val_nat I : ℤ)) 1)
  match t with
  | '-' :: r => core true r
  | '+' :: r => core false r
  | _ => core false t

/-- The double-valued address letters, exactly the `case` labels of the
first group in `parse_address` (`parser.cpp`).  Note that the lowercase
letters cover `x y z a b c u v w i j k f r s q` but not `e`, while the
uppercase group ends with `E`. -/
def double_address_letters : List Char :=
  ['X', 'Y', 'Z', 'A', 'B', 'C', 'U', 'V', 'W', 'I', 'J', 'K', 'F', 'R', 'Q', 'S',
   'x', 'y', 'z', 'a', 'b', 'c', 'u', 'v', 'w', 'i', 'j', 'k', 'f', 'r', 's', 'q',
   'E']

/-- The integer-valued address letters, exactly the `case` labels of the
second group in `parse_address` (`parser.cpp`). -/
def int_address_letters : List Char :=
  ['G', 'H', 'M', 'N', 'O', 'T', 'P', 'D', 'L',
   'g', 'h', 'm', 'n', 'o', 't', 'p', 'd', 'l']

/-- A token (an element of the `parse_stream<string>` token streams). -/
abbrev Tok : Type := List Char

/-- `parse_address` from `parser.cpp`: dispatch on the address letter; the
double letters parse the next token with `stod` (`parse_double`), the
integer letters with `stoi` (`parse_int`), anything else is the fatal
unknown-letter failure.  Reading the value token past the end of the stream
is an out-of-bounds cursor read in the source, modelled as
`unexpectedToken`. -/
def parse_address (c : Char) (toks : List Tok) : Res (addr × List Tok) :=
  if double_address_letters.contains c then
    match toks with
    | [] => .err .unexpectedToken
    | t :: r =>
      match stod_model t with
      | .ok v => .ok (make_double_address v, r)
      | .err e => .err e
  else if int_address_letters.contains c then
    match toks with
    | [] => .err .unexpectedToken
    | t :: r =>
      match stoi_model t with
      | .ok v => .ok (make_int_address v, r)
      | .err e => .err e
  else .err .unknownAddressLetter

/-- `parse_line_comment_with_delimiter` from `parser.cpp`: concatenate every
remaining token verbatim, with no separator. -/
def parse_line_comment_with_delimiter (toks : List Tok) : List Char :=
  toks.flatten

/-- `parse_isolated_word` from `parser.cpp`: the next token must be a single
character (the two `assert`s); it becomes a `word` chunk. -/
def parse_isolated_word (toks : List Tok) : Res (chunk × List Tok) :=
  match toks with
  | [c] :: r => .ok (make_isolated_word c, r)
  | _ => .err .unexpectedToken

/-- `parse_word_address` from `parser.cpp`: a single-character letter token
(asserted), then the classified value parse of `parse_address`. -/
def parse_word_address (toks : List Tok) : Res (chunk × List Tok) :=
  match toks with
  | [c] :: r =>
    match parse_address c r with
    | .ok (a, r') => .ok (.wordAddress c a, r')
    | .err e => .err e
  | _ => .err .unexpectedToken

/-- `parse_chunk` from `parser.cpp`, on the current token `t` and the
remaining tokens `rest`.  Dispatch: `[`-initial token → bracket comment with
first and last character stripped; `(`-initial → parenthesis comment; the
token `%` → percent chunk; the token `;` → line comment swallowing all
remaining tokens; otherwise look one token ahead — if the lookahead does not
start with a numeric character the current token is an isolated word, else a
word address.  The lookahead `*(s.remaining() + 1)` is an out-of-bounds read
when no further token exists; per the design notes this is the designed
error `unexpectedToken`. -/
def parse_chunk (t : Tok) (rest : List Tok) : Res (chunk × List Tok) :=
  if t.headD '\x00' = '[' then .ok (.comment '[' ']' ((t.drop 1).dropLast), rest)
  else if t.headD '\x00' = '(' then .ok (.comment '(' ')' ((t.drop 1).dropLast), rest)
  else if t = ['%'] then .ok (make_percent_chunk, rest)
  else if t = [';'] then .ok (.comment ';' ';' (parse_line_comment_with_delimiter rest), [])
  else
    match rest with
    | [] => .err .unexpectedToken
    | nx :: _ =>
      if is_num_char (nx.headD '\x00') = false then parse_isolated_word (t :: rest)
      else parse_word_address (t :: rest)

/-- `parse_address` returns a suffix of its token stream. -/
theorem parse_address_length {c : Char} {toks : List Tok} {a : addr} {r' : List Tok}
    (h : parse_address c toks = .ok (a, r')) : r'.length ≤ toks.length := by
  unfold parse_address at h
  split at h
  · split at h
    · cases h
    · split at h
      · cases h; simp
      · cases h
  · split at h
    · split at h
      · cases h
      · split at h
        · cases h; simp
        · cases h
    · cases h

/-- `parse_isolated_word` consumes exactly one token. -/
theorem parse_isolated_word_length {t : Tok} {rest : List Tok} {c : chunk} {r' : List Tok}
    (h : parse_isolated_word (t :: rest) = .ok (c, r')) : r' = rest := by
  unfold parse_isolated_word at h
  split at h
  · rename_i heq
    cases h
    cases heq
    rfl
  · cases h

/-- `parse_word_address` hands back a suffix of the lookahead tokens. -/
theorem parse_word_address_length {t : Tok} {rest : List Tok} {c : chunk} {r' : List Tok}
    (h : parse_word_address (t :: rest) = .ok (c, r')) : r'.length ≤ rest.length := by
  unfold parse_word_address at h
  split at h
  · rename_i heq
    split at h
    · rename_i ha
      cases h
      cases heq
      exact parse_address_length ha
    · cases h
  · cases h

/-- `parse_chunk` only hands back a suffix of the remaining tokens. -/
theorem parse_chunk_length {t : Tok} {rest : List Tok} {c : chunk} {r' : List Tok}
    (h : parse_chunk t rest = .ok (c, r')) : r'.length ≤ rest.length := by
  unfold parse_chunk at h
  split at h
  · cases h; exact Nat.le_refl _
  · split at h
    · cases h; exact Nat.le_refl _
    · split at h
      · cases h; exact Nat.le_refl _
      · split at h
        · cases h; simp
        · split at h
          · cases h
          · split at h
            · have := parse_isolated_word_length h
              simp [this]
            · exact parse_word_address_length h

/-- Fuel-indexed body of the chunk-parsing loop (each `parse_chunk` call
consumes at least one token, so one unit of fuel per token suffices; the
fuel keeps the recursion structural so that it evaluates inside the
kernel). -/
def parse_chunks_aux : ℕ → List Tok → Res (List chunk)
  | 0, _ => .err .unexpectedToken
  | _ + 1, [] => .ok []
  | fuel + 1, t :: rest =>
    match parse_chunk t rest with
    | .err e => .err e
    | .ok (c, r') =>
      match parse_chunks_aux fuel r' with
      | .err e => .err e
      | .ok cs => .ok (c :: cs)

/-- The chunk-parsing loop of `parse_tokens`: repeatedly apply `parse_chunk`
until the token stream is exhausted. -/
def parse_chunks (toks : List Tok) : Res (List chunk) :=
  parse_chunks_aux (toks.length + 1) toks

/-- With sufficient fuel, the fuel amount is irrelevant. -/
theorem parse_chunks_aux_congr :
    ∀ (f1 f2 : ℕ) (toks : List Tok), toks.length < f1 → toks.length < f2 →
      parse_chunks_aux f1 toks = parse_chunks_aux f2 toks := by
  intro f1
  induction f1 with
  | zero => intro f2 toks h1 _; omega
  | succ f1 ih =>
    intro f2 toks h1 h2
    cases f2 with
    | zero => omega
    | succ f2 =>
      cases toks with
      | nil => rfl
      | cons t rest =>
        simp only [parse_chunks_aux]
        cases hpc : parse_chunk t rest with
        | err e => rfl
        | ok pr =>
          obtain ⟨c, r'⟩ := pr
          have hlen := parse_chunk_length hpc
          simp only [List.length_cons] at h1 h2
          dsimp only
          rw [ih f2 r' (by omega) (by omega)]

/-- The natural unfolding of `parse_chunks`, as in the source loop. -/
theorem parse_chunks_eq (t : Tok) (rest : List Tok) :
    parse_chunks (t :: rest) =
      match parse_chunk t rest with
      | .err e => .err e
      | .ok (c, r') =>
        match parse_chunks r' with
        | .err e => .err e
        | .ok cs => .ok (c :: cs) := by
  show parse_chunks_aux (rest.length + 1 + 1) (t :: rest) = _
  simp only [parse_chunks_aux]
  cases hpc : parse_chunk t rest with
  | err e => rfl
  | ok pr =>
    obtain ⟨c, r'⟩ := pr
    have hlen := parse_chunk_length hpc
    dsimp only
    rw [show parse_chunks_aux (rest.length + 1) r' = parse_chunks r' from
      parse_chunks_aux_congr _ _ _ (by omega) (by omega)]

/-- `is_slash` from `parser.cpp`. -/
def is_slash (t : Tok) : Bool := t == ['/']

/-- The token-stream `parse_slash` from `parser.cpp`: consume a leading `/`
token if present, reporting whether one was found. -/
def parse_slash (toks : List Tok) : Bool × List Tok :=
  match toks with
  | [] => (false, [])
  | t :: r => if is_slash t then (true, r) else (false, toks)

/-- `parse_line_number` from `parser.cpp`: if the next token is exactly `N`,
consume it and parse the following token as the integer line number,
otherwise report `(false, -1)`.  Reading past the end of the token stream
(both the `N` test on an exhausted stream and `parse_int` after a final `N`)
is an out-of-bounds cursor read in the source, modelled as
`unexpectedToken`. -/
def parse_line_number (toks : List Tok) : Res (Bool × ℤ × List Tok) :=
  match toks with
  | [] => .err .unexpectedToken
  | t :: r =>
    if t = ['N'] then
      match r with
      | [] => .err .unexpectedToken
      | v :: r2 =>
        match stoi_model v with
        | .ok n => .ok (true, n, r2)
        | .err e => .err e
    else .ok (false, -1, toks)

/-- `parse_tokens` from `parser.cpp`: an empty token list gives the empty
block; otherwise consume the optional `/`, the optional line number, then
chunks until exhaustion, and assemble through the two block constructors. -/
def parse_tokens (tokens : List Tok) : Res block :=
  match tokens with
  | [] => .ok ⟨false, -1, false, []⟩
  | _ :: _ =>
    let sl := parse_slash tokens
    match parse_line_number sl.2 with
    | .err e => .err e
    | .ok (lnFlag, lnVal, t2) =>
      match parse_chunks t2 with
      | .err e => .err e
      | .ok chs =>
        .ok (if lnFlag then ⟨true, lnVal, sl.1, chs⟩ else ⟨false, -1, sl.1, chs⟩)

/-- The depth update of the comment scanner: increment on the start
delimiter, decrement on the end delimiter, otherwise unchanged. -/
def pcwd_step (sc ec : Char) (depth : ℤ) (c : Char) : ℤ :=
  if c = sc then depth + 1 else if c = ec then depth - 1 else depth

/-- The character-level `parse_comment_with_delimiters` from `parser.cpp`:
scan forward tracking the nesting depth (increment on the start delimiter,
decrement on the end delimiter), appending every character to the token;
stop after the character that returns the depth to zero, or at the end of
the stream.  Returns the token and the unconsumed remainder. -/
def parse_comment_with_delimiters (sc ec : Char) : ℤ → List Char → List Char × List Char
  | _, [] => ([], [])
  | depth, c :: cs =>
    if 0 < pcwd_step sc ec depth c then
      ((c :: (parse_comment_with_delimiters sc ec (pcwd_step sc ec depth c) cs).1),
        (parse_comment_with_delimiters sc ec (pcwd_step sc ec depth c) cs).2)
    else ([c], cs)

/-- `digit_string` from `parser.cpp`: the maximal numeric-character prefix,
and the remainder of the stream. -/
def digit_string (cs : List Char) : List Char × List Char :=
  (cs.takeWhile is_num_char, cs.dropWhile is_num_char)

/-- `lex_token` from `parser.cpp`: a numeric character opens a numeric
token; `(` and `[` open depth-tracked comments; a bare `)` or `]` is the
fatal lexical error; anything else is a single-character token. -/
def lex_token (cs : List Char) : Res (List Char × List Char) :=
  match cs with
  | [] => .err .unexpectedToken
  | c :: rest =>
    if is_num_char c then .ok (digit_string (c :: rest))
    else if c = '(' then .ok (parse_comment_with_delimiters '(' ')' 0 (c :: rest))
    else if c = '[' then .ok (parse_comment_with_delimiters '[' ']' 0 (c :: rest))
    else if c = ')' then .err .lexError
    else if c = ']' then .err .lexError
    else .ok ([c], rest)

/-- The comment scanner splits its input: token plus remainder is the
stream. -/
theorem pcwd_append (sc ec : Char) :
    ∀ (cs : List Char) (d : ℤ),
      (parse_comment_with_delimiters sc ec d cs).1 ++
        (parse_comment_with_delimiters sc ec d cs).2 = cs := by
  intro cs
  induction cs with
  | nil => intro d; simp [parse_comment_with_delimiters]
  | cons c cs ih =>
    intro d
    by_cases h0 : 0 < pcwd_step sc ec d c
    · simp only [parse_comment_with_delimiters, if_pos h0, List.cons_append, List.cons.injEq,
        true_and]
      exact ih _
    · simp [parse_comment_with_delimiters, if_neg h0]

/-- The comment scanner consumes at least one character of a nonempty
stream. -/
theorem pcwd_fst_ne_nil (sc ec : Char) (d : ℤ) (c : Char) (cs : List Char) :
    (parse_comment_with_delimiters sc ec d (c :: cs)).1 ≠ [] := by
  by_cases h0 : 0 < pcwd_step sc ec d c
  · simp [parse_comment_with_delimiters, if_pos h0]
  · simp [parse_comment_with_delimiters, if_neg h0]

/-- The maximal numeric prefix plus the remainder is the stream. -/
theorem digit_string_append (cs : List Char) :
    (digit_string cs).1 ++ (digit_string cs).2 = cs := by
  simp [digit_string, List.takeWhile_append_dropWhile]

/-- `lex_token` splits its input into a nonempty token and the remainder. -/
theorem lex_token_split {cs t r : List Char} (h : lex_token cs = .ok (t, r)) :
    t ++ r = cs ∧ t ≠ [] := by
  unfold lex_token at h
  split at h
  · cases h
  · rename_i c rest
    split at h
    · rename_i hnum
      have hpair : digit_string (c :: rest) = (t, r) := by
        cases hds : digit_string (c :: rest)
        rw [hds] at h
        cases h
        rfl
      have h1 := congrArg Prod.fst hpair
      have h2 := congrArg Prod.snd hpair
      simp only at h1 h2
      constructor
      · rw [← h1, ← h2]; exact digit_string_append _
      · rw [← h1]; simp [digit_string, List.takeWhile_cons, hnum]
    · split at h
      · have hpair : parse_comment_with_delimiters '(' ')' 0 (c :: rest) = (t, r) := by
          cases hds : parse_comment_with_delimiters '(' ')' 0 (c :: rest)
          rw [hds] at h
          cases h
          rfl
        have h1 := congrArg Prod.fst hpair
        have h2 := congrArg Prod.snd hpair
        simp only at h1 h2
        constructor
        · rw [← h1, ← h2]; exact pcwd_append _ _ _ _
        · rw [← h1]; exact pcwd_fst_ne_nil _ _ _ _ _
      · split at h
        · have hpair : parse_comment_with_delimiters '[' ']' 0 (c :: rest) = (t, r) := by
            cases hds : parse_comment_with_delimiters '[' ']' 0 (c :: rest)
            rw [hds] at h
            cases h
            rfl
          have h1 := congrArg Prod.fst hpair
          have h2 := congrArg Prod.snd hpair
          simp only at h1 h2
          constructor
          · rw [← h1, ← h2]; exact pcwd_append _ _ _ _
          · rw [← h1]; exact pcwd_fst_ne_nil _ _ _ _ _
        · split at h
          · cases h
          · split at h
            · cases h
            · cases h
              simp

/-- Dropping a prefix never lengthens a list. -/
theorem dropWhile_length_le {α : Type} (p : α → Bool) (l : List α) :
    (l.dropWhile p).length ≤ l.length := by
  induction l with
  | nil => simp
  | cons c cs ih =>
    by_cases h : p c
    · rw [List.dropWhile_cons_of_pos h]
      exact Nat.le_succ_of_le ih
    · rw [List.dropWhile_cons_of_neg (by simpa using h)]

/-- Fuel-indexed body of the token loop of `lex_block` (each `lex_token`
call consumes at least one character, so one unit of fuel per character
suffices; the fuel keeps the recursion structural so that it evaluates
inside the kernel). -/
def lex_block_aux : ℕ → List Char → Res (List Tok)
  | 0, _ => .err .unexpectedToken
  | fuel + 1, cs =>
    match cs.dropWhile isspace_c with
    | [] => .ok []
    | c :: rest =>
      match lex_token (c :: rest) with
      | .err e => .err e
      | .ok (t, r) =>
        match lex_block_aux fuel r with
        | .err e => .err e
        | .ok ts => .ok (t :: ts)

/-- `lex_block` from `parser.cpp`: skip whitespace, then repeatedly lex a
token until the line is exhausted (whitespace between tokens is skipped and
never emitted). -/
def lex_block (cs : List Char) : Res (List Tok) :=
  lex_block_aux (cs.length + 1) cs

/-- With sufficient fuel, the fuel amount is irrelevant. -/
theorem lex_block_aux_congr :
    ∀ (f1 f2 : ℕ) (cs : List Char), cs.length < f1 → cs.length < f2 →
      lex_block_aux f1 cs = lex_block_aux f2 cs := by
  intro f1
  induction f1 with
  | zero => intro f2 cs h1 _; omega
  | succ f1 ih =>
    intro f2 cs h1 h2
    cases f2 with
    | zero => omega
    | succ f2 =>
      simp only [lex_block_aux]
      cases hdw : cs.dropWhile isspace_c with
      | nil => rfl
      | cons c rest =>
        dsimp only
        cases hlt : lex_token (c :: rest) with
        | err e => rfl
        | ok pr =>
          obtain ⟨t, r⟩ := pr
          have hsplit := lex_token_split hlt
          have hlen : (c :: rest).length ≤ cs.length := by
            rw [← hdw]; exact dropWhile_length_le isspace_c cs
          have hsum : t.length + r.length = (c :: rest).length := by
            rw [← hsplit.1]; simp
          have ht : 0 < t.length := List.length_pos.mpr hsplit.2
          simp only [List.length_cons] at hlen hsum
          dsimp only
          rw [ih f2 r (by omega) (by omega)]

/-- The natural unfolding of `lex_block`, as in the source loop. -/
theorem lex_block_eq (cs : List Char) :
    lex_block cs =
      match cs.dropWhile isspace_c with
      | [] => .ok []
      | c :: rest =>
        match lex_token (c :: rest) with
        | .err e => .err e
        | .ok (t, r) =>
          match lex_block r with
          | .err e => .err e
          | .ok ts => .ok (t :: ts) := by
  show lex_block_aux (cs.length + 1) cs = _
  simp only [lex_block_aux]
  cases hdw : cs.dropWhile isspace_c with
  | nil => rfl
  | cons c rest =>
    dsimp only
    cases hlt : lex_token (c :: rest) with
    | err e => rfl
    | ok pr =>
      obtain ⟨t, r⟩ := pr
      have hsplit := lex_token_split hlt
      have hlen : (c :: rest).length ≤ cs.length := by
        rw [← hdw]; exact dropWhile_length_le isspace_c cs
      have hsum : t.length + r.length = (c :: rest).length := by
        rw [← hsplit.1]; simp
      have ht : 0 < t.length := List.length_pos.mpr hsplit.2
      simp only [List.length_cons] at hlen hsum
      dsimp only
      rw [show lex_block_aux cs.length r = lex_block r from
        lex_block_aux_congr _ _ _ (by omega) (by omega)]

/-- `split_lines_cpp`: the line-splitting loop of `lex_gprog` in
`parser.cpp` — find the next `\n`, take the line, skip the newline, repeat
while characters remain. -/
def split_lines_aux : ℕ → List Char → List (List Char)
  | 0, _ => []
  | _ + 1, [] => []
  | fuel + 1, c :: cs =>
    ((c :: cs).takeWhile (fun x => x != '\n')) ::
      split_lines_aux fuel ((c :: cs).drop (((c :: cs).takeWhile (fun x => x != '\n')).length + 1))

/-- `split_lines_cpp` (fueled for kernel evaluation; the loop skips at least
one character per line, so one unit of fuel per character suffices). -/
def split_lines_cpp (str : List Char) : List (List Char) :=
  split_lines_aux (str.length + 1) str

/-- With sufficient fuel, the fuel amount is irrelevant. -/
theorem split_lines_aux_congr :
    ∀ (f1 f2 : ℕ) (str : List Char), str.length < f1 → str.length < f2 →
      split_lines_aux f1 str = split_lines_aux f2 str := by
  intro f1
  induction f1 with
  | zero => intro f2 str h1 _; omega
  | succ f1 ih =>
    intro f2 str h1 h2
    cases f2 with
    | zero => omega
    | succ f2 =>
      cases str with
      | nil => rfl
      | cons c cs =>
        simp only [split_lines_aux, List.cons.injEq, true_and]
        apply ih
        · simp only [List.length_drop, List.length_cons] at *
          omega
        · simp only [List.length_drop, List.length_cons] at *
          omega

/-- The natural unfolding of `split_lines_cpp` on a nonempty text, as in
the source loop: take the line up to the next newline, skip it and the
newline, repeat. -/
theorem split_lines_cpp_eq (c : Char) (cs : List Char) :
    split_lines_cpp (c :: cs) =
      ((c :: cs).takeWhile (fun x => x != '\n')) ::
        split_lines_cpp ((c :: cs).drop (((c :: cs).takeWhile (fun x => x != '\n')).length + 1)) := by
  show split_lines_aux (cs.length + 1 + 1) (c :: cs) = _
  simp only [split_lines_aux, List.cons.injEq, true_and]
  apply split_lines_aux_congr
  · simp only [List.length_drop, List.length_cons]
    omega
  · simp only [List.length_drop, List.length_cons]
    omega

/-- The per-line body of `lex_gprog`: skip length-zero lines; otherwise lex
and parse the line and append the block, failing fast on any error. -/
def lex_parse_lines (lines : List (List Char)) : Res (List block) :=
  match lines with
  | [] => .ok []
  | l :: ls =>
    if l.length > 0 then
      match lex_block l with
      | .err e => .err e
      | .ok toks =>
        match parse_tokens toks with
        | .err e => .err e
        | .ok b =>
          match lex_parse_lines ls with
          | .err e => .err e
          | .ok bs => .ok (b :: bs)
    else lex_parse_lines ls

/-- `lex_gprog` from `parser.cpp`. -/
def lex_gprog (str : List Char) : Res (List block) :=
  lex_parse_lines (split_lines_cpp str)

/-- `parse_gcode` from `parser.cpp` (the `gcode_program` wrapper stores the
block list unchanged). -/
def parse_gcode (program_text : List Char) : Res (List block) :=
  lex_gprog program_text

/-- The decimal character of a digit value below ten. -/
def digit_char (d : ℕ) : Char :=
  if d = 0 then '0' else if d = 1 then '1' else if d = 2 then '2'
  else if d = 3 then '3' else if d = 4 then '4' else if d = 5 then '5'
  else if d = 6 then '6' else if d = 7 then '7' else if d = 8 then '8' else '9'

def rep_nat_aux : ℕ → ℕ → List Char
  | 0, _ => []
  | fuel + 1, n =>
    if n < 10 then [digit_char n] else rep_nat_aux fuel (n / 10) ++ [digit_char (n % 10)]

/-- Decimal digits of a natural number, most significant first (the decimal
text `operator<<` produces for a non-negative integer; fueled for kernel
evaluation). -/
def rep_nat (n : ℕ) : List Char := rep_nat_aux (n + 1) n

/-- With sufficient fuel, the fuel amount is irrelevant. -/
theorem rep_nat_aux_congr :
    ∀ (f1 f2 n : ℕ), n < f1 → n < f2 → rep_nat_aux f1 n = rep_nat_aux f2 n := by
  intro f1
  induction f1 with
  | zero => intro f2 n h1 _; omega
  | succ f1 ih =>
    intro f2 n h1 h2
    cases f2 with
    | zero => omega
    | succ f2 =>
      simp only [rep_nat_aux]
      by_cases h : n < 10
      · simp [h]
      · have : n / 10 < n := Nat.div_lt_self (by omega) (by omega)
        simp only [if_neg h]
        rw [ih f2 (n / 10) (by omega) (by omega)]

/-- The natural unfolding of `rep_nat`. -/
theorem rep_nat_eq (n : ℕ) :
    rep_nat n = if n < 10 then [digit_char n] else rep_nat (n / 10) ++ [digit_char (n % 10)] := by
  show rep_nat_aux (n + 1) n = _
  simp only [rep_nat_aux]
  by_cases h : n < 10
  · simp [h]
  · have : n / 10 < n := Nat.div_lt_self (by omega) (by omega)
    simp only [if_neg h]
    rw [rep_nat_aux_congr n (n / 10 + 1) (n / 10) (by omega) (by omega)]
    rfl

/-- The decimal text `operator<<` produces for an `int` value. -/
def print_int (n : ℤ) : List Char :=
  if n < 0 then '-' :: rep_nat n.natAbs else rep_nat n.natAbs

def max_pow_aux : ℕ → ℕ → ℕ → ℕ
  | 0, _, _ => 0
  | fuel + 1, p, n =>
    if 2 ≤ p ∧ n ≠ 0 ∧ p ∣ n then 1 + max_pow_aux fuel p (n / p) else 0

/-- Largest power of `p` dividing `n` (for `2 ≤ p`, `n ≠ 0`; fueled for
kernel evaluation). -/
def max_pow (p n : ℕ) : ℕ := max_pow_aux (n + 1) p n

/-- With sufficient fuel, the fuel amount is irrelevant. -/
theorem max_pow_aux_congr :
    ∀ (f1 f2 p n : ℕ), n < f1 → n < f2 → max_pow_aux f1 p n = max_pow_aux f2 p n := by
  intro f1
  induction f1 with
  | zero => intro f2 p n h1 _; omega
  | succ f1 ih =>
    intro f2 p n h1 h2
    cases f2 with
    | zero => omega
    | succ f2 =>
      simp only [max_pow_aux]
      by_cases h : 2 ≤ p ∧ n ≠ 0 ∧ p ∣ n
      · have : n / p < n := Nat.div_lt_self (Nat.pos_of_ne_zero h.2.1) (by omega)
        simp only [if_pos h]
        rw [ih f2 p (n / p) (by omega) (by omega)]
      · simp [if_neg h]

/-- The natural unfolding of `max_pow`. -/
theorem max_pow_eq (p n : ℕ) :
    max_pow p n = if 2 ≤ p ∧ n ≠ 0 ∧ p ∣ n then 1 + max_pow p (n / p) else 0 := by
  show max_pow_aux (n + 1) p n = _
  simp only [max_pow_aux]
  by_cases h : 2 ≤ p ∧ n ≠ 0 ∧ p ∣ n
  · have : n / p < n := Nat.div_lt_self (Nat.pos_of_ne_zero h.2.1) (by omega)
    simp only [if_pos h]
    rw [max_pow_aux_congr n (n / p + 1) p (n / p) (by omega) (by omega)]
    rfl
  · simp [if_neg h]

/-- A decimal exponent for a denominator: `den ∣ 10 ^ dec_exp den` exactly
when the denominator has only the prime factors 2 and 5, i.e. when the
rational has a finite decimal expansion. -/
def dec_exp (d : ℕ) : ℕ := max (max_pow 2 d) (max_pow 5 d)

/-- A rational with a finite decimal expansion — every value `stod` can
produce is of this form. -/
def wf_decimal (q : ℚ) : Bool := decide (q.den ∣ 10 ^ dec_exp q.den)

/-- Left-pad a digit string with zeros to the given length. -/
def pad_zeros (len : ℕ) (ds : List Char) : List Char :=
  List.replicate (len - ds.length) '0' ++ ds

/-- Text of the default `operator<<` of a `double` holding a decimal
rational.  The stream's default formatting (`%g` with precision 6) rounds
to six significant digits and chooses scientific notation when the rounded
magnitude is below `10 ^ (-4 : ℤ)` or at least `10 ^ 6`.  Inside the
fixed-notation range, when the value itself has at most six significant
digits, that rounding is the identity and the stream prints exactly the
canonical decimal written here: sign, integer part, and (when the value is
not integral) a `.` followed by the minimal fractional digits — trailing
fractional zeros never arise because `dec_exp` is the least power of ten
clearing the denominator, matching the stream's suppression of trailing
zeros, and an integral value prints with no decimal point, matching the
stream's suppression of a bare point.  `fits_double_format` below
delimits exactly this faithful domain; the wellformedness `wf_chunk`
requires it, so every theorem below evaluates this function only where it
coincides with the program.  Outside the domain the true stream output
rounds, may use scientific notation, and also depends on the IEEE-754
binary rounding of the stored value, which this exact-rational embedding
does not model; non-decimal rationals cannot arise from parsing at all
and render here as `0`. -/
def print_q (q : ℚ) : List Char :=
  let k := dec_exp q.den
  if q.den ∣ 10 ^ k then
    let n : ℤ := q.num * ((10 ^ k / q.den : ℕ) : ℤ)
    if k = 0 then print_int n
    else
      let ds := pad_zeros (k + 1) (rep_nat n.natAbs)
      (if n < 0 then ['-'] else []) ++
        ds.take (ds.length - k) ++ '.' :: ds.drop (ds.length - k)
  else ['0']

/-- The domain on which the default stream formatting of a `double`
provably prints the exact canonical decimal that `print_q` renders: the
value is a finite decimal (`wf_decimal`); with `k := dec_exp q.den` the
least power of ten clearing the denominator, `n` the numerator scaled so
that `q = n / 10 ^ k`, and `D` the decimal digit count of `|n|`, it has
`D ≤ 6` and `k ≤ D + 3`.  By minimality of `k` the last digit of `n` is
nonzero whenever `k > 0`, so `D ≤ 6` says the value has at most six
significant digits — rounding to six is then the identity — and, the
decimal exponent of `q` being `D - 1 - k`, the two bounds confine that
exponent to `[-4, 5]`, exactly the range in which the formatting uses
fixed rather than scientific notation (a decimal of at most six
significant digits is also unchanged by the round trip through the
nearest IEEE-754 double, fifteen digits being the guarantee).  A value
such as `0.00005` (exponent `-5`, printed `5e-05`, whose `e` the re-parse
rejects as an address letter) or `1.2345678` (eight significant digits,
printed rounded as `1.23457`) falls outside the domain. -/
def fits_double_format (q : ℚ) : Bool :=
  let k := dec_exp q.den
  let n : ℤ := q.num * ((10 ^ k / q.den : ℕ) : ℤ)
  let D := (rep_nat n.natAbs).length
  wf_decimal q && (D ≤ 6 : Bool) && (k ≤ D + 3 : Bool)

/-- The faithful-format domain contains `2.5` and `0` but excludes the
small magnitude `0.00005` (the stream would print `5e-05`) and the
eight-digit `1.2345678` (the stream would print `1.23457`). -/
theorem fits_double_format_bounds :
    fits_double_format (mkRat 5 2) = true ∧
    fits_double_format 0 = true ∧
    fits_double_format (mkRat 1 20000) = false ∧
    fits_double_format (mkRat 12345678 10000000) = false := by
  refine ⟨by decide, by decide, by decide, by decide⟩

/-- Values in the faithful-format domain are finite decimals. -/
theorem fits_double_format_wf {q : ℚ} (h : fits_double_format q = true) :
    wf_decimal q = true := by
  simp only [fits_double_format, Bool.and_eq_true] at h
  exact h.1.1

/-- `addr::print` from `gcode_program.h`: integer addresses print as decimal
integers, double addresses with the stream's double formatting. -/
def addr.print : addr → List Char
  | .intA n => print_int n
  | .dblA q => print_q q

/-- `chunk::print` from `gcode_program.h`: comments print delimiter, text,
delimiter; word addresses print the letter then the value; percent prints
`%`; an isolated word prints its character. -/
def chunk.print : chunk → List Char
  | .comment l r text => l :: text ++ [r]
  | .wordAddress w a => w :: a.print
  | .percent => ['%']
  | .word c => [c]

/-- `block::print` from `gcode_program.h`: `N<number> ` if a line number is
present, then every chunk's text followed by one space (the deletion flag is
not printed). -/
def block.print (b : block) : List Char :=
  (if b.has_line_no then 'N' :: print_int b.line_no ++ [' '] else []) ++
    (b.chunks.map (fun c => c.print ++ [' '])).flatten

/-- `block::to_string`. -/
def block.to_string (b : block) : List Char := b.print

/-- The program `operator<<` from `gcode_program.cpp`: each block's text on
its own line, in order. -/
def print_program (bs : List block) : List Char :=
  (bs.map (fun b => b.print ++ ['\n'])).flatten

/-- The same block with the deletion flag cleared — re-parsing a rendered
block can never see a `/` because `block::print` does not emit one. -/
def unslash (b : block) : block :=
  ⟨b.has_line_no, b.line_no, false, b.chunks⟩

/-- The scan of the comment body `t` from depth `d` stays strictly positive
and ends at depth 1, so that one further closing delimiter ends the
comment.  `closes_at l r 1 t` says `t` is a balanced comment body. -/
def closes_at (l r : Char) : ℤ → List Char → Bool
  | d, [] => d == 1
  | d, c :: cs =>
    let d' := pcwd_step l r d c
    (0 < d' : Bool) && closes_at l r d' cs

/-- The first character of the first token a chunk renders to. -/
def chunk_first_char : chunk → Char
  | .comment l _ _ => l
  | .wordAddress w _ => w
  | .percent => '%'
  | .word c => c

/-- Whether a chunk is an isolated word (the only chunk kind whose re-parse
inspects the following token). -/
def is_word_chunk : chunk → Bool
  | .word _ => true
  | _ => false

/-- Wellformedness of one chunk for faithful re-lexing of its printed text:
comments use one of the two bracket pairs, have a balanced body, and no
embedded newline; word addresses pair a letter with the value kind that
letter's classification produces, doubles being finite decimals inside the
faithful stream-format domain `fits_double_format` (at most six
significant digits and a fixed-notation magnitude, so the stream renders
them exactly); isolated words are not comment/percent/semicolon starters,
not whitespace, and not an unmatched closer. -/
def wf_chunk : chunk → Bool
  | .comment l r text =>
      (((l == '(') && (r == ')')) || ((l == '[') && (r == ']'))) &&
        closes_at l r 1 text && text.all (fun c => c != '\n')
  | .wordAddress w a =>
      match a with
      | .intA _ => int_address_letters.contains w
      | .dblA d => double_address_letters.contains w && fits_double_format d
  | .percent => true
  | .word c =>
      !(c == '(') && !(c == '[') && !(c == ')') && !(c == ']') &&
        !(c == '%') && !(c == ';') && !isspace_c c

/-- Wellformedness of a chunk sequence: every chunk is wellformed, an
isolated word is never last (its re-parse would be the out-of-bounds
lookahead), and an isolated word is never followed by a chunk whose first
rendered character is numeric (the lookahead would misclassify it). -/
def wf_chunk_seq : List chunk → Bool
  | [] => true
  | [c] => wf_chunk c && !is_word_chunk c
  | c :: d :: rest =>
      wf_chunk c && (!is_word_chunk c || !is_num_char (chunk_first_char d)) &&
        wf_chunk_seq (d :: rest)

/-- Wellformedness of a block for faithful re-parsing of its printed text:
wellformed chunk sequence; the line-number value is the constructor's `-1`
when absent; the rendered line is nonempty (else the program re-parse drops
it); and when there is no line number the first chunk must not make the
re-parse see a leading `/` or `N` token. -/
def wf_block (b : block) : Bool :=
  wf_chunk_seq b.chunks &&
    (b.has_line_no ||
      (b.line_no == -1 &&
        match b.chunks with
        | [] => false
        | c :: _ =>
          match c with
          | .word w => !(w == '/') && !(w == 'N')
          | .wordAddress w _ => !(w == 'N')
          | _ => true))

/-- Wellformedness of a program: every block is wellformed. -/
def wf_program (bs : List block) : Bool := bs.all wf_block

/-- The scan of `cs` from depth `d` keeps the depth strictly positive all
the way to the end of the stream (an unclosed comment). -/
def stays_pos (l r : Char) : ℤ → List Char → Bool
  | _, [] => true
  | d, c :: cs =>
    let d' := pcwd_step l r d c
    (0 < d' : Bool) && stays_pos l r d' cs

/-- Scanning a balanced body followed by the closing delimiter stops
exactly after that delimiter, with everything beyond untouched. -/
theorem pcwd_of_closes (sc ec : Char) (hne : ec ≠ sc) :
    ∀ (t : List Char) (d : ℤ), closes_at sc ec d t = true →
      ∀ rest, parse_comment_with_delimiters sc ec d (t ++ ec :: rest) = (t ++ [ec], rest) := by
  intro t
  induction t with
  | nil =>
    intro d h rest
    simp only [closes_at, beq_iff_eq] at h
    subst h
    have hstep : pcwd_step sc ec 1 ec = 0 := by
      simp [pcwd_step, hne]
    simp [parse_comment_with_delimiters, hstep]
  | cons c t ih =>
    intro d h rest
    simp only [closes_at, Bool.and_eq_true, decide_eq_true_eq] at h
    obtain ⟨h1, h2⟩ := h
    simp only [List.cons_append, parse_comment_with_delimiters, if_pos h1]
    simp only [List.append_eq]
    rw [ih _ h2 rest]

/-- Scanning a stream whose depth never returns to zero consumes the whole
stream (unbalanced input runs to the end). -/
theorem pcwd_run_to_end (sc ec : Char) :
    ∀ (cs : List Char) (d : ℤ), stays_pos sc ec d cs = true →
      parse_comment_with_delimiters sc ec d cs = (cs, []) := by
  intro cs
  induction cs with
  | nil => intro d _; rfl
  | cons c cs ih =>
    intro d h
    simp only [stays_pos, Bool.and_eq_true, decide_eq_true_eq] at h
    obtain ⟨h1, h2⟩ := h
    simp only [parse_comment_with_delimiters, if_pos h1]
    rw [ih _ h2]

/-- Lexing from a `(` with a balanced body: one token spanning the whole
comment, delimiters included. -/
theorem lex_token_comment_paren (t rest : List Char) (h : closes_at '(' ')' 1 t = true) :
    lex_token ('(' :: (t ++ ')' :: rest)) = .ok ('(' :: t ++ [')'], rest) := by
  have e1 : lex_token ('(' :: (t ++ ')' :: rest)) =
      .ok (parse_comment_with_delimiters '(' ')' 0 ('(' :: (t ++ ')' :: rest))) := rfl
  have e2 : parse_comment_with_delimiters '(' ')' 0 ('(' :: (t ++ ')' :: rest)) =
      ((('(' :: (parse_comment_with_delimiters '(' ')' 1 (t ++ ')' :: rest)).1)),
        (parse_comment_with_delimiters '(' ')' 1 (t ++ ')' :: rest)).2) := rfl
  rw [e1, e2, pcwd_of_closes '(' ')' (by decide) t 1 h rest]
  rfl

/-- Lexing from a `[` with a balanced body: one token spanning the whole
comment, delimiters included. -/
theorem lex_token_comment_bracket (t rest : List Char) (h : closes_at '[' ']' 1 t = true) :
    lex_token ('[' :: (t ++ ']' :: rest)) = .ok ('[' :: t ++ [']'], rest) := by
  have e1 : lex_token ('[' :: (t ++ ']' :: rest)) =
      .ok (parse_comment_with_delimiters '[' ']' 0 ('[' :: (t ++ ']' :: rest))) := rfl
  have e2 : parse_comment_with_delimiters '[' ']' 0 ('[' :: (t ++ ']' :: rest)) =
      ((('[' :: (parse_comment_with_delimiters '[' ']' 1 (t ++ ']' :: rest)).1)),
        (parse_comment_with_delimiters '[' ']' 1 (t ++ ']' :: rest)).2) := rfl
  rw [e1, e2, pcwd_of_closes '[' ']' (by decide) t 1 h rest]
  rfl

/-- `parse_address` on a double-classified letter parses the value token
with `stod` and consumes it. -/
theorem parse_address_dbl {ch : Char} (hc : double_address_letters.contains ch = true)
    {t : Tok} {v : ℚ} (hv : stod_model t = .ok v) (rest : List Tok) :
    parse_address ch (t :: rest) = .ok (make_double_address v, rest) := by
  unfold parse_address
  rw [if_pos hc]
  dsimp only
  rw [hv]

/-- `parse_address` on an integer-classified letter parses the value token
with `stoi` and consumes it. -/
theorem parse_address_int {ch : Char} (hc1 : double_address_letters.contains ch = false)
    (hc2 : int_address_letters.contains ch = true)
    {t : Tok} {v : ℤ} (hv : stoi_model t = .ok v) (rest : List Tok) :
    parse_address ch (t :: rest) = .ok (make_int_address v, rest) := by
  unfold parse_address
  rw [hc1, hc2]
  dsimp only
  rw [hv]
  rfl

/-- `parse_address` on an unclassified letter fails fatally. -/
theorem parse_address_unknown {ch : Char} (hc1 : double_address_letters.contains ch = false)
    (hc2 : int_address_letters.contains ch = false) (toks : List Tok) :
    parse_address ch toks = .err .unknownAddressLetter := by
  unfold parse_address
  rw [hc1, hc2]
  rfl

/-- Splitting a list at a marked element, when the prefix satisfies the
predicate nowhere fails and the marker fails it. -/
theorem takeWhile_append_stop (p : Char → Bool) (xs : List Char) (y : Char) (ys : List Char)
    (hxs : ∀ c ∈ xs, p c = true) (hy : p y = false) :
    (xs ++ y :: ys).takeWhile p = xs ∧ (xs ++ y :: ys).dropWhile p = y :: ys := by
  induction xs with
  | nil => simp [List.takeWhile_cons, List.dropWhile_cons, hy]
  | cons c cs ih =>
    have hc : p c = true := hxs c (by simp)
    have ih' := ih (fun c hc => hxs c (by simp [hc]))
    simp [List.takeWhile_cons, List.dropWhile_cons, hc, ih'.1, ih'.2]

/-- The digit characters are exactly the values below ten. -/
theorem digit_char_val {d : ℕ} (h : d < 10) : digit_val (digit_char d) = d := by
  interval_cases d <;> rfl

/-- The digit characters are decimal digits. -/
theorem digit_char_isDigit {d : ℕ} (h : d < 10) : (digit_char d).isDigit = true := by
  interval_cases d <;> rfl

/-- `foldl` form of `val_nat` from an arbitrary accumulator. -/
theorem val_nat_go (ds : List Char) :
    ∀ (a : ℕ), ds.foldl (fun a c => 10 * a + digit_val c) a =
      a * 10 ^ ds.length + val_nat ds := by
  induction ds with
  | nil => intro a; simp [val_nat]
  | cons c cs ih =>
    intro a
    show cs.foldl _ (10 * a + digit_val c) = _
    rw [ih (10 * a + digit_val c)]
    have : val_nat (c :: cs) = digit_val c * 10 ^ cs.length + val_nat cs := by
      show cs.foldl _ (10 * 0 + digit_val c) = _
      rw [ih (10 * 0 + digit_val c)]
      ring
    rw [this]
    simp [List.length_cons, pow_succ]
    ring

/-- `val_nat` on an appended digit run. -/
theorem val_nat_append (xs ys : List Char) :
    val_nat (xs ++ ys) = val_nat xs * 10 ^ ys.length + val_nat ys := by
  show (xs ++ ys).foldl _ 0 = _
  rw [List.foldl_append, val_nat_go ys]
  rfl

/-- Leading zeros do not change the value of a digit string. -/
theorem val_nat_replicate_zero (j : ℕ) (ds : List Char) :
    val_nat (List.replicate j '0' ++ ds) = val_nat ds := by
  rw [val_nat_append]
  have : val_nat (List.replicate j '0') = 0 := by
    induction j with
    | zero => rfl
    | succ j ih =>
      rw [List.replicate_succ]
      show (List.replicate j '0').foldl _ (10 * 0 + digit_val '0') = _
      rw [val_nat_go]
      simpa [digit_val] using ih
  simp [this]

/-- Every character `rep_nat` prints is a decimal digit. -/
theorem rep_nat_digits (n : ℕ) : ∀ c ∈ rep_nat n, c.isDigit = true := by
  induction n using Nat.strong_induction_on with
  | _ n ih =>
    rw [rep_nat_eq]
    by_cases h : n < 10
    · simpa [h] using digit_char_isDigit h
    · simp only [if_neg h, List.mem_append, List.mem_singleton]
      intro c hc
      rcases hc with hc | hc
      · exact ih (n / 10) (Nat.div_lt_self (by omega) (by omega)) c hc
      · subst hc
        exact digit_char_isDigit (Nat.mod_lt _ (by omega))

/-- `rep_nat` always prints at least one digit. -/
theorem rep_nat_ne_nil (n : ℕ) : rep_nat n ≠ [] := by
  rw [rep_nat_eq]
  by_cases h : n < 10 <;> simp [h]

/-- Reading back the decimal digits of `n` gives `n`. -/
theorem val_nat_rep_nat (n : ℕ) : val_nat (rep_nat n) = n := by
  induction n using Nat.strong_induction_on with
  | _ n ih =>
    rw [rep_nat_eq]
    by_cases h : n < 10
    · simp only [if_pos h]
      show [digit_char n].foldl _ 0 = n
      simp [digit_char_val h]
    · simp only [if_neg h]
      rw [val_nat_append, ih (n / 10) (Nat.div_lt_self (by omega) (by omega))]
      have : val_nat [digit_char (n % 10)] = n % 10 := by
        show [digit_char (n % 10)].foldl _ 0 = _
        simp [digit_char_val (Nat.mod_lt n (show 0 < 10 by omega))]
      simp only [List.length_singleton, this, pow_one]
      omega

/-- A numeric character is not whitespace. -/
theorem num_not_space {c : Char} (h : is_num_char c = true) : isspace_c c = false := by
  by_contra hc
  simp only [Bool.not_eq_false] at hc
  simp only [isspace_c, Bool.or_eq_true, beq_iff_eq] at hc
  rcases hc with ((((h1 | h1) | h1) | h1) | h1) | h1 <;> subst h1 <;> simp [is_num_char] at h

/-- A decimal digit is a numeric character. -/
theorem digit_is_num {c : Char} (h : c.isDigit = true) : is_num_char c = true := by
  simp [is_num_char, h]

/-- `stoi` on a pure digit string returns its value. -/
theorem stoi_model_digits {ds : List Char} (hne : ds ≠ [])
    (hd : ∀ c ∈ ds, c.isDigit = true) : stoi_model ds = .ok (val_nat ds : ℤ) := by
  obtain ⟨c, cs, rfl⟩ := List.exists_cons_of_ne_nil hne
  have hc : c.isDigit = true := hd c (by simp)
  have hcm : c ≠ '-' := by rintro rfl; simp at hc
  have hcp : c ≠ '+' := by rintro rfl; simp at hc
  unfold stoi_model
  split
  · rename_i heq; rw [List.cons.injEq] at heq; exact absurd heq.1 hcm
  · rename_i heq; rw [List.cons.injEq] at heq; exact absurd heq.1 hcp
  · dsimp only
    rw [List.takeWhile_eq_self_iff.mpr hd]
    rw [if_neg (by simp [hne])]
    simp

/-- `stoi` reads back `print_int`. -/
theorem stoi_print_int (n : ℤ) : stoi_model (print_int n) = .ok n := by
  unfold print_int
  by_cases h : n < 0
  · rw [if_pos h]
    have e : stoi_model ('-' :: rep_nat n.natAbs) =
        (if ((rep_nat n.natAbs).takeWhile Char.isDigit).length = 0
          then (.err .numericFormat : Res ℤ)
          else .ok (-1 * (val_nat ((rep_nat n.natAbs).takeWhile Char.isDigit) : ℤ))) := rfl
    rw [e]
    rw [List.takeWhile_eq_self_iff.mpr (rep_nat_digits n.natAbs)]
    rw [if_neg (by simp [rep_nat_ne_nil])]
    rw [val_nat_rep_nat]
    have : (-1 : ℤ) * (n.natAbs : ℤ) = n := by
      omega
    rw [this]
  · rw [if_neg h]
    rw [stoi_model_digits (rep_nat_ne_nil _) (rep_nat_digits _)]
    rw [val_nat_rep_nat]
    congr 1
    omega

/-- Length of a left-padded digit string. -/
theorem pad_zeros_length (len : ℕ) (ds : List Char) :
    (pad_zeros len ds).length = max len ds.length := by
  simp [pad_zeros]
  omega

/-- Padding preserves digit-string membership in the digits. -/
theorem pad_zeros_digits {len : ℕ} {ds : List Char}
    (h : ∀ c ∈ ds, c.isDigit = true) : ∀ c ∈ pad_zeros len ds, c.isDigit = true := by
  intro c hc
  rcases List.mem_append.mp hc with hc | hc
  · rw [List.eq_of_mem_replicate hc]; rfl
  · exact h c hc

/-- Padding preserves the value. -/
theorem val_nat_pad_zeros (len : ℕ) (ds : List Char) :
    val_nat (pad_zeros len ds) = val_nat ds :=
  val_nat_replicate_zero _ ds

/-- `stod` on a pure digit string returns its integer value. -/
theorem stod_model_digits {ds : List Char} (hne : ds ≠ [])
    (hd : ∀ c ∈ ds, c.isDigit = true) :
    stod_model ds = .ok (mkRat (val_nat ds : ℤ) 1) := by
  obtain ⟨c, cs, rfl⟩ := List.exists_cons_of_ne_nil hne
  have hc : c.isDigit = true := hd c (by simp)
  have hcm : c ≠ '-' := by rintro rfl; simp at hc
  have hcp : c ≠ '+' := by rintro rfl; simp at hc
  unfold stod_model
  split
  · rename_i heq; rw [List.cons.injEq] at heq; exact absurd heq.1 hcm
  · rename_i heq; rw [List.cons.injEq] at heq; exact absurd heq.1 hcp
  · dsimp only
    rw [List.takeWhile_eq_self_iff.mpr hd, List.dropWhile_eq_nil_iff.mpr hd]
    simp

/-- `stod` on a digit string with an embedded decimal point returns the
scaled quotient. -/
theorem stod_model_point (ip fp : List Char) (h1 : ip ≠ [])
    (hip : ∀ c ∈ ip, c.isDigit = true) (hfp : ∀ c ∈ fp, c.isDigit = true) :
    stod_model (ip ++ '.' :: fp) =
      .ok (mkRat ((val_nat ip : ℤ) * (10 : ℤ) ^ fp.length + (val_nat fp : ℤ))
        ((10 : ℕ) ^ fp.length)) := by
  obtain ⟨c, cs, rfl⟩ := List.exists_cons_of_ne_nil h1
  have hc : c.isDigit = true := hip c (by simp)
  have hcm : c ≠ '-' := by rintro rfl; simp at hc
  have hcp : c ≠ '+' := by rintro rfl; simp at hc
  have hsplit := takeWhile_append_stop Char.isDigit (c :: cs) '.' fp hip (by rfl)
  unfold stod_model
  split
  · rename_i heq
    rw [show (c :: cs) ++ '.' :: fp = c :: (cs ++ '.' :: fp) from rfl, List.cons.injEq] at heq
    exact absurd heq.1 hcm
  · rename_i heq
    rw [show (c :: cs) ++ '.' :: fp = c :: (cs ++ '.' :: fp) from rfl, List.cons.injEq] at heq
    exact absurd heq.1 hcp
  · dsimp only
    rw [hsplit.1, hsplit.2]
    have hfst : fp.takeWhile Char.isDigit = fp := List.takeWhile_eq_self_iff.mpr hfp
    simp [hfst]

/-- The signed variant of `stod_model_point`. -/
theorem stod_model_point_neg (ip fp : List Char) (h1 : ip ≠ [])
    (hip : ∀ c ∈ ip, c.isDigit = true) (hfp : ∀ c ∈ fp, c.isDigit = true) :
    stod_model ('-' :: (ip ++ '.' :: fp)) =
      .ok (mkRat (-((val_nat ip : ℤ) * (10 : ℤ) ^ fp.length + (val_nat fp : ℤ)))
        ((10 : ℕ) ^ fp.length)) := by
  have hsplit := takeWhile_append_stop Char.isDigit ip '.' fp hip (by rfl)
  have e : stod_model ('-' :: (ip ++ '.' :: fp)) =
      (let I := (ip ++ '.' :: fp).takeWhile Char.isDigit
       let r2 := (ip ++ '.' :: fp).dropWhile Char.isDigit
       match r2 with
       | '.' :: r3 =>
         let F := r3.takeWhile Char.isDigit
         if I.length = 0 ∧ F.length = 0 then (.err .numericFormat : Res ℚ)
         else
           .ok (mkRat (-((val_nat I : ℤ) * (10 : ℤ) ^ F.length + (val_nat F : ℤ)))
             ((10 : ℕ) ^ F.length))
       | _ =>
         if I.length = 0 then .err .numericFormat
         else .ok (mkRat (-(val_nat I : ℤ)) 1)) := rfl
  rw [e]
  dsimp only
  rw [hsplit.1, hsplit.2]
  have hfst : fp.takeWhile Char.isDigit = fp := List.takeWhile_eq_self_iff.mpr hfp
  have hiplen : ip.length ≠ 0 := by
    have := List.length_pos.mpr h1
    omega
  simp [hfst, hiplen]

/-- The signed variant of `stod_model_digits`. -/
theorem stod_model_digits_neg {ds : List Char} (hne : ds ≠ [])
    (hd : ∀ c ∈ ds, c.isDigit = true) :
    stod_model ('-' :: ds) = .ok (mkRat (-(val_nat ds : ℤ)) 1) := by
  have e : stod_model ('-' :: ds) =
      (let I := ds.takeWhile Char.isDigit
       let r2 := ds.dropWhile Char.isDigit
       match r2 with
       | '.' :: r3 =>
         let F := r3.takeWhile Char.isDigit
         if I.length = 0 ∧ F.length = 0 then (.err .numericFormat : Res ℚ)
         else
           .ok (mkRat (-((val_nat I : ℤ) * (10 : ℤ) ^ F.length + (val_nat F : ℤ)))
             ((10 : ℕ) ^ F.length))
       | _ =>
         if I.length = 0 then .err .numericFormat
         else .ok (mkRat (-(val_nat I : ℤ)) 1)) := rfl
  rw [e]
  dsimp only
  rw [List.takeWhile_eq_self_iff.mpr hd, List.dropWhile_eq_nil_iff.mpr hd]
  have hlen : ds.length ≠ 0 := by
    have := List.length_pos.mpr hne
    omega
  simp [hlen]

/-- `stod` reads back `print_int` as the integral rational. -/
theorem stod_print_int (m : ℤ) : stod_model (print_int m) = .ok (mkRat m 1) := by
  unfold print_int
  by_cases h : m < 0
  · rw [if_pos h]
    rw [stod_model_digits_neg (rep_nat_ne_nil _) (rep_nat_digits _)]
    rw [val_nat_rep_nat]
    have : -((m.natAbs : ℤ)) = m := by omega
    rw [this]
  · rw [if_neg h]
    rw [stod_model_digits (rep_nat_ne_nil _) (rep_nat_digits _)]
    rw [val_nat_rep_nat]
    have : ((m.natAbs : ℤ)) = m := by omega
    rw [this]

/-- The decisive rational identity: the numerator `print_q` computes, over
the denominator `10^k`, is the original decimal rational. -/
theorem mkRat_print_q_key (q : ℚ) (k : ℕ) (hdvd : q.den ∣ 10 ^ k) :
    mkRat (q.num * ((10 ^ k / q.den : ℕ) : ℤ)) ((10 : ℕ) ^ k) = q := by
  have hden : (0 : ℕ) < q.den := q.den_pos
  have hpow : (0 : ℕ) < 10 ^ k := Nat.pos_pow_of_pos k (by omega)
  have hc : (10 ^ k / q.den) * q.den = 10 ^ k := Nat.div_mul_cancel hdvd
  have hcpos : (0 : ℕ) < 10 ^ k / q.den :=
    Nat.div_pos (Nat.le_of_dvd hpow hdvd) hden
  have hdenne : (q.den : ℚ) ≠ 0 := Nat.cast_ne_zero.mpr (by omega)
  have hbne : (((10 : ℕ) ^ k : ℕ) : ℚ) ≠ 0 :=
    Nat.cast_ne_zero.mpr (Nat.pos_iff_ne_zero.mp hpow)
  have hcQ : ((10 ^ k / q.den : ℕ) : ℚ) * (q.den : ℚ) = (((10 : ℕ) ^ k : ℕ) : ℚ) := by
    exact_mod_cast congrArg (fun x : ℕ => (x : ℚ)) hc
  rw [Rat.mkRat_eq_div]
  rw [Int.cast_mul, Int.cast_natCast]
  conv_rhs => rw [← Rat.num_div_den q]
  rw [div_eq_div_iff hbne hdenne]
  rw [mul_assoc, hcQ]

/-- `stod` reads back `print_q` on every finite-decimal rational. -/
theorem stod_print_q (q : ℚ) (h : wf_decimal q = true) :
    stod_model (print_q q) = .ok q := by
  have hdvd : q.den ∣ 10 ^ dec_exp q.den := by
    simpa [wf_decimal] using h
  unfold print_q
  rw [if_pos hdvd]
  by_cases hk : dec_exp q.den = 0
  · rw [if_pos hk]
    rw [stod_print_int]
    have hkey := mkRat_print_q_key q (dec_exp q.den) hdvd
    rw [hk] at hkey
    rw [hk]
    simp only [pow_zero] at hkey ⊢
    rw [hkey]
  · rw [if_neg hk]
    dsimp only
    set n : ℤ := q.num * ((10 ^ dec_exp q.den / q.den : ℕ) : ℤ) with hn
    set k := dec_exp q.den with hkdef
    set ds := pad_zeros (k + 1) (rep_nat n.natAbs) with hds
    have hdsdig : ∀ c ∈ ds, c.isDigit = true :=
      pad_zeros_digits (rep_nat_digits _)
    have hL : k + 1 ≤ ds.length := by
      rw [hds, pad_zeros_length]
      omega
    have hipfp : ds.take (ds.length - k) ++ ds.drop (ds.length - k) = ds :=
      List.take_append_drop _ _
    have hiplen : (ds.take (ds.length - k)).length = ds.length - k := by
      rw [List.length_take]
      omega
    have hfplen : (ds.drop (ds.length - k)).length = k := by
      rw [List.length_drop]
      omega
    have hipne : ds.take (ds.length - k) ≠ [] := by
      intro hcon
      have := congrArg List.length hcon
      rw [hiplen] at this
      simp at this
      omega
    have hipdig : ∀ c ∈ ds.take (ds.length - k), c.isDigit = true :=
      fun c hc => hdsdig c (List.take_subset _ _ hc)
    have hfpdig : ∀ c ∈ ds.drop (ds.length - k), c.isDigit = true :=
      fun c hc => hdsdig c (List.drop_subset _ _ hc)
    have hval : val_nat (ds.take (ds.length - k)) * 10 ^ k + val_nat (ds.drop (ds.length - k)) =
        n.natAbs := by
      rw [show (10 : ℕ) ^ k = 10 ^ (ds.drop (ds.length - k)).length by rw [hfplen]]
      rw [← val_nat_append, hipfp, hds, val_nat_pad_zeros, val_nat_rep_nat]
    have hvalZ : (val_nat (ds.take (ds.length - k)) : ℤ) * (10 : ℤ) ^ k +
        (val_nat (ds.drop (ds.length - k)) : ℤ) = (n.natAbs : ℤ) := by
      have h0 := congrArg (fun x : ℕ => (x : ℤ)) hval
      simp only [Nat.cast_add, Nat.cast_mul, Nat.cast_pow, Nat.cast_ofNat] at h0
      exact h0
    by_cases hneg : n < 0
    · rw [if_pos hneg]
      rw [show ['-'] ++ ds.take (ds.length - k) ++ '.' :: ds.drop (ds.length - k) =
          '-' :: (ds.take (ds.length - k) ++ '.' :: ds.drop (ds.length - k)) from rfl]
      rw [stod_model_point_neg _ _ hipne hipdig hfpdig]
      rw [hfplen, hvalZ]
      have h3 : -((n.natAbs : ℤ)) = n := by omega
      rw [h3]
      rw [mkRat_print_q_key q k hdvd]
    · rw [if_neg hneg]
      rw [List.nil_append]
      rw [stod_model_point _ _ hipne hipdig hfpdig]
      rw [hfplen, hvalZ]
      have h3 : ((n.natAbs : ℤ)) = n := by omega
      rw [h3]
      rw [mkRat_print_q_key q k hdvd]

/-- The empty line lexes to no tokens. -/
theorem lex_block_nil : lex_block [] = .ok [] := rfl

/-- Leading whitespace is skipped by `lex_block`. -/
theorem lex_block_cons_space {c : Char} (h : isspace_c c = true) (cs : List Char) :
    lex_block (c :: cs) = lex_block cs := by
  rw [lex_block_eq (c :: cs), lex_block_eq cs, List.dropWhile_cons_of_pos h]

/-- One `lex_block` step on a non-whitespace head. -/
theorem lex_block_cons {c : Char} (h : isspace_c c = false) (cs : List Char) :
    lex_block (c :: cs) =
      match lex_token (c :: cs) with
      | .err e => .err e
      | .ok (t, r) =>
        match lex_block r with
        | .err e => .err e
        | .ok ts => .ok (t :: ts) := by
  rw [lex_block_eq (c :: cs), List.dropWhile_cons_of_neg (by simp [h])]

/-- A single-character token (with its following separator space) lexes to
itself; holds both for numeric characters (the digit run stops at the
space) and for ordinary characters. -/
theorem lex_block_single (c : Char) (rest : List Char) (hws : isspace_c c = false)
    (hp : c ≠ '(') (hb : c ≠ '[') (hcp : c ≠ ')') (hcb : c ≠ ']') :
    lex_block (c :: ' ' :: rest) =
      match lex_block rest with
      | .err e => .err e
      | .ok ts => .ok ([c] :: ts) := by
  rw [lex_block_cons hws]
  by_cases hnum : is_num_char c = true
  · have htok : lex_token (c :: ' ' :: rest) = .ok ([c], ' ' :: rest) := by
      unfold lex_token
      dsimp only
      rw [if_pos hnum]
      unfold digit_string
      rw [List.takeWhile_cons_of_pos hnum, List.takeWhile_cons_of_neg (by decide),
        List.dropWhile_cons_of_pos hnum, List.dropWhile_cons_of_neg (by decide)]
    rw [htok]
    dsimp only
    rw [lex_block_cons_space (by decide)]
  · have htok : lex_token (c :: ' ' :: rest) = .ok ([c], ' ' :: rest) := by
      unfold lex_token
      dsimp only
      rw [if_neg (by simpa using hnum), if_neg hp, if_neg hb, if_neg hcp, if_neg hcb]
    rw [htok]
    dsimp only
    rw [lex_block_cons_space (by decide)]

/-- A maximal numeric token (with its following separator space) lexes to
itself. -/
theorem lex_block_num_token (t : List Char) (rest : List Char) (h1 : t ≠ [])
    (h2 : ∀ c ∈ t, is_num_char c = true) :
    lex_block (t ++ ' ' :: rest) =
      match lex_block rest with
      | .err e => .err e
      | .ok ts => .ok (t :: ts) := by
  obtain ⟨c, cs, rfl⟩ := List.exists_cons_of_ne_nil h1
  have hc : is_num_char c = true := h2 c (by simp)
  have hsplit := takeWhile_append_stop is_num_char (c :: cs) ' '
    rest h2 (by decide)
  rw [show (c :: cs) ++ ' ' :: rest = c :: (cs ++ ' ' :: rest) from rfl]
  rw [lex_block_cons (num_not_space hc)]
  have htok : lex_token (c :: (cs ++ ' ' :: rest)) = .ok (c :: cs, ' ' :: rest) := by
    unfold lex_token
    dsimp only
    rw [if_pos hc]
    unfold digit_string
    rw [show (c :: (cs ++ ' ' :: rest)) = ((c :: cs) ++ ' ' :: rest) from rfl]
    rw [hsplit.1, hsplit.2]
  rw [htok]
  dsimp only
  rw [lex_block_cons_space (by decide)]

/-- A balanced parenthesis comment token (with its following separator
space) lexes to itself. -/
theorem lex_block_comment_paren (t : List Char) (rest : List Char)
    (h : closes_at '(' ')' 1 t = true) :
    lex_block ('(' :: t ++ ')' :: ' ' :: rest) =
      match lex_block rest with
      | .err e => .err e
      | .ok ts => .ok (('(' :: t ++ [')']) :: ts) := by
  rw [show ('(' :: t ++ ')' :: ' ' :: rest) = '(' :: (t ++ ')' :: ' ' :: rest) from rfl]
  rw [lex_block_cons (by decide)]
  rw [lex_token_comment_paren t (' ' :: rest) h]
  dsimp only
  rw [lex_block_cons_space (by decide)]

/-- A balanced bracket comment token (with its following separator space)
lexes to itself. -/
theorem lex_block_comment_bracket (t : List Char) (rest : List Char)
    (h : closes_at '[' ']' 1 t = true) :
    lex_block ('[' :: t ++ ']' :: ' ' :: rest) =
      match lex_block rest with
      | .err e => .err e
      | .ok ts => .ok (('[' :: t ++ [']']) :: ts) := by
  rw [show ('[' :: t ++ ']' :: ' ' :: rest) = '[' :: (t ++ ']' :: ' ' :: rest) from rfl]
  rw [lex_block_cons (by decide)]
  rw [lex_token_comment_bracket t (' ' :: rest) h]
  dsimp only
  rw [lex_block_cons_space (by decide)]

/-- Every character of a printed integer is a numeric character. -/
theorem print_int_num_chars (n : ℤ) : ∀ c ∈ print_int n, is_num_char c = true := by
  intro c hc
  unfold print_int at hc
  by_cases h : n < 0
  · rw [if_pos h] at hc
    rcases List.mem_cons.mp hc with hc | hc
    · subst hc; rfl
    · exact digit_is_num (rep_nat_digits _ c hc)
  · rw [if_neg h] at hc
    exact digit_is_num (rep_nat_digits _ c hc)

/-- A printed integer is nonempty. -/
theorem print_int_ne_nil (n : ℤ) : print_int n ≠ [] := by
  unfold print_int
  by_cases h : n < 0
  · simp [h]
  · simp [h, rep_nat_ne_nil]

/-- Every character of a printed double is a numeric character. -/
theorem print_q_num_chars (q : ℚ) : ∀ c ∈ print_q q, is_num_char c = true := by
  intro c hc
  unfold print_q at hc
  by_cases h1 : q.den ∣ 10 ^ dec_exp q.den
  · rw [if_pos h1] at hc
    by_cases h2 : dec_exp q.den = 0
    · rw [if_pos h2] at hc
      exact print_int_num_chars _ c hc
    · rw [if_neg h2] at hc
      dsimp only at hc
      rcases List.mem_append.mp hc with hc | hc
      · rcases List.mem_append.mp hc with hc | hc
        · by_cases h3 : q.num * ((10 ^ dec_exp q.den / q.den : ℕ) : ℤ) < 0
          · rw [if_pos h3] at hc
            rw [List.mem_singleton] at hc
            subst hc; rfl
          · rw [if_neg h3] at hc
            simp at hc
        · exact digit_is_num (pad_zeros_digits (rep_nat_digits _) c (List.take_subset _ _ hc))
      · rcases List.mem_cons.mp hc with hc | hc
        · subst hc; rfl
        · exact digit_is_num (pad_zeros_digits (rep_nat_digits _) c (List.drop_subset _ _ hc))
  · rw [if_neg h1] at hc
    rw [List.mem_singleton] at hc
    subst hc; rfl

/-- A printed double is nonempty. -/
theorem print_q_ne_nil (q : ℚ) : print_q q ≠ [] := by
  unfold print_q
  by_cases h1 : q.den ∣ 10 ^ dec_exp q.den
  · rw [if_pos h1]
    by_cases h2 : dec_exp q.den = 0
    · rw [if_pos h2]
      exact print_int_ne_nil _
    · rw [if_neg h2]
      dsimp only
      intro hcon
      rcases List.append_eq_nil.mp hcon with ⟨_, h4⟩
      exact absurd h4 (by simp)
  · rw [if_neg h1]
    simp

/-- The value text of an address is a nonempty numeric-character string. -/
theorem addr_print_num (a : addr) :
    a.print ≠ [] ∧ ∀ c ∈ a.print, is_num_char c = true := by
  cases a with
  | intA n => exact ⟨print_int_ne_nil n, print_int_num_chars n⟩
  | dblA q => exact ⟨print_q_ne_nil q, print_q_num_chars q⟩

/-- The token sequence each chunk's printed text lexes back to. -/
def chunk_tokens : chunk → List Tok
  | .comment l r text => [l :: text ++ [r]]
  | .wordAddress w a => [[w], a.print]
  | .percent => [['%']]
  | .word c => [[c]]

/-- Membership from a successful `contains` test. -/
theorem mem_of_contains {c : Char} {l : List Char} (h : l.contains c = true) : c ∈ l := by
  simpa using h

/-- None of the classified address letters is numeric, whitespace, a
comment delimiter, an unmatched closer, a percent, a semicolon, or a
slash. -/
theorem address_letter_facts :
    ∀ c ∈ double_address_letters ++ int_address_letters,
      is_num_char c = false ∧ isspace_c c = false ∧ c ≠ '(' ∧ c ≠ '[' ∧
        c ≠ ')' ∧ c ≠ ']' ∧ c ≠ '%' ∧ c ≠ ';' ∧ c ≠ '/' := by
  decide

/-- The integer letters are not in the double set (the two `switch` groups
are disjoint). -/
theorem int_not_double :
    ∀ c ∈ int_address_letters, double_address_letters.contains c = false := by
  decide

/-- Every chunk prints at least one character. -/
theorem chunk_print_ne_nil (c : chunk) : c.print ≠ [] := by
  cases c <;> simp [chunk.print]

/-- Lexing the printed text of a wellformed chunk (with its separator
space) recovers exactly its token sequence. -/
theorem lex_chunk (c : chunk) (rest : List Char) (h : wf_chunk c = true) :
    lex_block (c.print ++ ' ' :: rest) =
      match lex_block rest with
      | .err e => .err e
      | .ok ts => .ok (chunk_tokens c ++ ts) := by
  cases c with
  | comment l r text =>
    simp only [wf_chunk, Bool.and_eq_true, Bool.or_eq_true, beq_iff_eq] at h
    obtain ⟨⟨hdel, hbal⟩, _⟩ := h
    rcases hdel with ⟨hl, hr⟩ | ⟨hl, hr⟩ <;> subst hl <;> subst hr
    · rw [show (chunk.comment '(' ')' text).print ++ ' ' :: rest =
          '(' :: text ++ ')' :: ' ' :: rest by simp [chunk.print]]
      rw [lex_block_comment_paren text rest hbal]
      cases hres : lex_block rest <;> simp [chunk_tokens]
    · rw [show (chunk.comment '[' ']' text).print ++ ' ' :: rest =
          '[' :: text ++ ']' :: ' ' :: rest by simp [chunk.print]]
      rw [lex_block_comment_bracket text rest hbal]
      cases hres : lex_block rest <;> simp [chunk_tokens]
  | wordAddress w a =>
    have hw : w ∈ double_address_letters ++ int_address_letters := by
      simp only [wf_chunk] at h
      cases a with
      | intA _ => exact List.mem_append.mpr (Or.inr (mem_of_contains h))
      | dblA _ =>
        simp only [Bool.and_eq_true] at h
        exact List.mem_append.mpr (Or.inl (mem_of_contains h.1))
    obtain ⟨hnum, hws, hp, hb, hcp, hcb, _, _, _⟩ := address_letter_facts w hw
    rw [show (chunk.wordAddress w a).print ++ ' ' :: rest =
        w :: (a.print ++ ' ' :: rest) by simp [chunk.print]]
    rw [lex_block_cons hws]
    have htok : lex_token (w :: (a.print ++ ' ' :: rest)) =
        .ok ([w], a.print ++ ' ' :: rest) := by
      unfold lex_token
      dsimp only
      rw [if_neg (by simp [hnum]), if_neg hp, if_neg hb, if_neg hcp, if_neg hcb]
    rw [htok]
    dsimp only
    rw [lex_block_num_token a.print rest (addr_print_num a).1 (addr_print_num a).2]
    cases hres : lex_block rest <;> simp [chunk_tokens]
  | percent =>
    rw [show (chunk.percent).print ++ ' ' :: rest = '%' :: ' ' :: rest by simp [chunk.print]]
    rw [lex_block_single '%' rest (by decide) (by decide) (by decide) (by decide) (by decide)]
    cases hres : lex_block rest <;> simp [chunk_tokens]
  | word c =>
    simp only [wf_chunk, Bool.and_eq_true, Bool.not_eq_true', beq_eq_false_iff_ne] at h
    obtain ⟨⟨⟨⟨⟨⟨hp, hb⟩, hcp⟩, hcb⟩, _⟩, _⟩, hws⟩ := h
    rw [show (chunk.word c).print ++ ' ' :: rest = c :: ' ' :: rest by simp [chunk.print]]
    rw [lex_block_single c rest (by simpa using hws) hp hb hcp hcb]
    cases hres : lex_block rest <;> simp [chunk_tokens]

/-- Lexing the printed chunk sequence of a block recovers the concatenated
token sequences of the chunks. -/
theorem lex_chunk_list :
    ∀ (l : List chunk), (∀ c ∈ l, wf_chunk c = true) →
      lex_block ((l.map (fun c => c.print ++ [' '])).flatten) =
        .ok ((l.map chunk_tokens).flatten) := by
  intro l
  induction l with
  | nil => intro _; rfl
  | cons c l ih =>
    intro h
    rw [show ((c :: l).map (fun c => c.print ++ [' '])).flatten =
        c.print ++ ' ' :: ((l.map (fun c => c.print ++ [' '])).flatten) by simp]
    rw [lex_chunk c _ (h c (by simp))]
    rw [ih (fun d hd => h d (by simp [hd]))]
    simp

/-- The token sequence a block's printed text lexes back to. -/
def block_tokens (b : block) : List Tok :=
  (if b.has_line_no then [['N'], print_int b.line_no] else []) ++
    (b.chunks.map chunk_tokens).flatten

/-- Lexing the printed text of a block whose chunks are wellformed recovers
exactly its token sequence. -/
theorem lex_print_block (b : block) (h : ∀ c ∈ b.chunks, wf_chunk c = true) :
    lex_block b.print = .ok (block_tokens b) := by
  unfold block.print block_tokens
  by_cases hln : b.has_line_no = true
  · rw [hln]
    simp only [if_true]
    rw [show ('N' :: print_int b.line_no ++ [' ']) ++
        ((b.chunks.map (fun c => c.print ++ [' '])).flatten) =
        'N' :: (print_int b.line_no ++
          ' ' :: ((b.chunks.map (fun c => c.print ++ [' '])).flatten)) by simp]
    rw [lex_block_cons (by decide)]
    have htok : lex_token ('N' :: (print_int b.line_no ++
        ' ' :: ((b.chunks.map (fun c => c.print ++ [' '])).flatten))) =
        .ok (['N'], print_int b.line_no ++
          ' ' :: ((b.chunks.map (fun c => c.print ++ [' '])).flatten)) := by
      unfold lex_token
      dsimp only
      rw [if_neg (by decide), if_neg (by decide), if_neg (by decide),
        if_neg (by decide), if_neg (by decide)]
    rw [htok]
    dsimp only
    rw [lex_block_num_token _ _ (print_int_ne_nil _) (print_int_num_chars _)]
    rw [lex_chunk_list b.chunks h]
    rfl
  · rw [Bool.not_eq_true] at hln
    rw [hln]
    simp only [Bool.false_eq_true, if_false, List.nil_append]
    rw [lex_chunk_list b.chunks h]

/-- Head and first-token shape of a chunk's token sequence. -/
theorem chunk_tokens_head (d : chunk) :
    ∃ t ts, chunk_tokens d = t :: ts ∧ t.headD '\x00' = chunk_first_char d := by
  cases d with
  | comment l r text => exact ⟨l :: text ++ [r], [], rfl, rfl⟩
  | wordAddress w a => exact ⟨[w], [a.print], rfl, rfl⟩
  | percent => exact ⟨['%'], [], rfl, rfl⟩
  | word c => exact ⟨[c], [], rfl, rfl⟩

/-- `parse_chunk` on a parenthesis comment token strips one character from
each end. -/
theorem parse_chunk_comment_paren (text : List Char) (R : List Tok) :
    parse_chunk ('(' :: text ++ [')']) R = .ok (.comment '(' ')' text, R) := by
  unfold parse_chunk
  rw [if_neg (by simp), if_pos (by simp)]
  rw [show (('(' :: text ++ [')']).drop 1).dropLast = text by simp]

/-- `parse_chunk` on a bracket comment token strips one character from each
end. -/
theorem parse_chunk_comment_bracket (text : List Char) (R : List Tok) :
    parse_chunk ('[' :: text ++ [']']) R = .ok (.comment '[' ']' text, R) := by
  unfold parse_chunk
  rw [if_pos (by simp)]
  rw [show (('[' :: text ++ [']']).drop 1).dropLast = text by simp]

/-- `parse_chunk` on the percent token. -/
theorem parse_chunk_percent (R : List Tok) :
    parse_chunk ['%'] R = .ok (make_percent_chunk, R) := rfl

/-- `parse_chunk` on an isolated word whose lookahead does not start
numerically. -/
theorem parse_chunk_word (w : Char) (nx : Tok) (R : List Tok)
    (h1 : w ≠ '[') (h2 : w ≠ '(') (h3 : w ≠ '%') (h4 : w ≠ ';')
    (h5 : is_num_char (nx.headD '\x00') = false) :
    parse_chunk [w] (nx :: R) = .ok (make_isolated_word w, nx :: R) := by
  unfold parse_chunk
  rw [if_neg (by simpa using h1), if_neg (by simpa using h2),
    if_neg (by simp [h3]), if_neg (by simp [h4])]
  dsimp only
  rw [if_pos h5]
  rfl

/-- `parse_chunk` on a word-address letter followed by its printed value
token re-parses the same typed value. -/
theorem parse_chunk_word_address (w : Char) (a : addr) (R : List Tok)
    (h : wf_chunk (.wordAddress w a) = true) :
    parse_chunk [w] (a.print :: R) = .ok (.wordAddress w a, R) := by
  have hw : w ∈ double_address_letters ++ int_address_letters := by
    simp only [wf_chunk] at h
    cases a with
    | intA _ => exact List.mem_append.mpr (Or.inr (mem_of_contains h))
    | dblA _ =>
      simp only [Bool.and_eq_true] at h
      exact List.mem_append.mpr (Or.inl (mem_of_contains h.1))
  obtain ⟨hnum, hws, hp, hb, hcp, hcb, hpc, hsc, _⟩ := address_letter_facts w hw
  have hhead : is_num_char (a.print.head?.getD '\x00') = true := by
    obtain ⟨hne, hall⟩ := addr_print_num a
    obtain ⟨c0, cs0, he⟩ := List.exists_cons_of_ne_nil hne
    rw [he]
    exact hall c0 (by rw [he]; simp)
  unfold parse_chunk
  rw [if_neg (by simpa using hb), if_neg (by simpa using hp),
    if_neg (by simp [hpc]), if_neg (by simp [hsc])]
  dsimp only
  rw [if_neg (by simp [hhead])]
  show parse_word_address ([w] :: a.print :: R) = _
  unfold parse_word_address
  dsimp only
  cases a with
  | intA i =>
    simp only [wf_chunk] at h
    simp only [addr.print]
    rw [parse_address_int (int_not_double w (mem_of_contains h)) h (stoi_print_int i) R]
    rfl
  | dblA q =>
    simp only [wf_chunk, Bool.and_eq_true] at h
    simp only [addr.print]
    rw [parse_address_dbl h.1 (stod_print_q q (fits_double_format_wf h.2)) R]
    rfl

/-- The head of a wellformed chunk sequence is wellformed. -/
theorem wf_seq_head {c : chunk} {l : List chunk}
    (h : wf_chunk_seq (c :: l) = true) : wf_chunk c = true := by
  cases l with
  | nil =>
    simp only [wf_chunk_seq, Bool.and_eq_true] at h
    exact h.1
  | cons d rest =>
    simp only [wf_chunk_seq, Bool.and_eq_true] at h
    exact h.1.1

/-- The tail of a wellformed chunk sequence is wellformed. -/
theorem wf_seq_tail {c : chunk} {l : List chunk}
    (h : wf_chunk_seq (c :: l) = true) : wf_chunk_seq l = true := by
  cases l with
  | nil => rfl
  | cons d rest =>
    simp only [wf_chunk_seq, Bool.and_eq_true] at h
    exact h.2

/-- Re-parsing the token sequences of a wellformed chunk list recovers the
chunks. -/
theorem parse_chunks_of_wf :
    ∀ (l : List chunk), wf_chunk_seq l = true →
      parse_chunks ((l.map chunk_tokens).flatten) = .ok l := by
  intro l
  induction l with
  | nil => intro _; rfl
  | cons c l ih =>
    intro h
    have hc := wf_seq_head h
    have hl := wf_seq_tail h
    cases c with
    | comment dl dr text =>
      simp only [wf_chunk, Bool.and_eq_true, Bool.or_eq_true, beq_iff_eq] at hc
      obtain ⟨⟨hdel, _⟩, _⟩ := hc
      rcases hdel with ⟨h1, h2⟩ | ⟨h1, h2⟩ <;> subst h1 <;> subst h2
      · rw [show (((chunk.comment '(' ')' text) :: l).map chunk_tokens).flatten =
            ('(' :: text ++ [')']) :: ((l.map chunk_tokens).flatten) by simp [chunk_tokens]]
        rw [parse_chunks_eq, parse_chunk_comment_paren]
        dsimp only
        rw [ih hl]
      · rw [show (((chunk.comment '[' ']' text) :: l).map chunk_tokens).flatten =
            ('[' :: text ++ [']']) :: ((l.map chunk_tokens).flatten) by simp [chunk_tokens]]
        rw [parse_chunks_eq, parse_chunk_comment_bracket]
        dsimp only
        rw [ih hl]
    | wordAddress w a =>
      rw [show (((chunk.wordAddress w a) :: l).map chunk_tokens).flatten =
          [w] :: a.print :: ((l.map chunk_tokens).flatten) by simp [chunk_tokens]]
      rw [parse_chunks_eq, parse_chunk_word_address w a _ hc]
      dsimp only
      rw [ih hl]
    | percent =>
      rw [show ((chunk.percent :: l).map chunk_tokens).flatten =
          ['%'] :: ((l.map chunk_tokens).flatten) by simp [chunk_tokens]]
      rw [parse_chunks_eq, parse_chunk_percent]
      dsimp only
      rw [ih hl]
      rfl
    | word w =>
      cases l with
      | nil => simp [wf_chunk_seq, is_word_chunk] at h
      | cons d rest =>
        simp only [wf_chunk_seq, Bool.and_eq_true, Bool.or_eq_true,
          Bool.not_eq_true', is_word_chunk] at h
        have hadj : is_num_char (chunk_first_char d) = false := by
          rcases h.1.2 with hcon | hok
          · cases hcon
          · exact hok
        simp only [wf_chunk, Bool.and_eq_true, Bool.not_eq_true', beq_eq_false_iff_ne] at hc
        obtain ⟨⟨⟨⟨⟨⟨hp, hb⟩, _⟩, _⟩, hpc⟩, hsc⟩, _⟩ := hc
        obtain ⟨t1, ts1, hts, hhd⟩ := chunk_tokens_head d
        rw [show (((chunk.word w) :: d :: rest).map chunk_tokens).flatten =
            [w] :: (chunk_tokens d ++ ((rest.map chunk_tokens).flatten)) by simp [chunk_tokens]]
        rw [hts]
        rw [show (t1 :: ts1) ++ ((rest.map chunk_tokens).flatten) =
            t1 :: (ts1 ++ (rest.map chunk_tokens).flatten) from rfl]
        rw [parse_chunks_eq, parse_chunk_word w t1 _ hb hp hpc hsc (by rw [hhd]; exact hadj)]
        dsimp only
        rw [show t1 :: (ts1 ++ ((rest.map chunk_tokens).flatten)) =
            ((d :: rest).map chunk_tokens).flatten by simp [hts]]
        rw [ih hl]
        rfl

/-- `parse_tokens` when the first token triggers neither the slash nor the
line-number branch. -/
theorem parse_tokens_no_line (t1 : Tok) (rest : List Tok)
    (h1 : is_slash t1 = false) (h2 : t1 ≠ ['N']) :
    parse_tokens (t1 :: rest) =
      match parse_chunks (t1 :: rest) with
      | .err e => .err e
      | .ok chs => .ok ⟨false, -1, false, chs⟩ := by
  have hsl : parse_slash (t1 :: rest) = (false, t1 :: rest) := by
    unfold parse_slash
    dsimp only
    rw [h1]
    rfl
  have hln : parse_line_number (t1 :: rest) = .ok (false, -1, t1 :: rest) := by
    unfold parse_line_number
    dsimp only
    rw [if_neg h2]
  unfold parse_tokens
  dsimp only
  rw [hsl]
  dsimp only
  rw [hln]
  dsimp only
  cases hpc : parse_chunks (t1 :: rest) <;> rfl

/-- `parse_tokens` on an `N`-token line number followed by its printed
value. -/
theorem parse_tokens_with_line (n : ℤ) (rest : List Tok) :
    parse_tokens (['N'] :: print_int n :: rest) =
      match parse_chunks rest with
      | .err e => .err e
      | .ok chs => .ok ⟨true, n, false, chs⟩ := by
  have hsl : parse_slash (['N'] :: print_int n :: rest) =
      (false, ['N'] :: print_int n :: rest) := rfl
  have hln : parse_line_number (['N'] :: print_int n :: rest) = .ok (true, n, rest) := by
    unfold parse_line_number
    dsimp only
    rw [if_pos rfl]
    rw [stoi_print_int]
  unfold parse_tokens
  dsimp only
  rw [hsl]
  dsimp only
  rw [hln]
  dsimp only
  cases hpc : parse_chunks rest <;> rfl

/-- Re-parsing the token sequence of a wellformed block recovers the block
with its deletion flag cleared (the render never emits the `/`). -/
theorem parse_print_block (b : block) (h : wf_block b = true) :
    parse_tokens (block_tokens b) = .ok (unslash b) := by
  obtain ⟨hln, n, sl, chunks⟩ := b
  simp only [wf_block, Bool.and_eq_true, Bool.or_eq_true] at h
  obtain ⟨hseq, hrest⟩ := h
  cases hln with
  | true =>
    show parse_tokens (((if true then [['N'], print_int n] else []) : List Tok) ++
      ((chunks.map chunk_tokens).flatten)) = _
    rw [if_pos rfl]
    rw [show ([['N'], print_int n] : List Tok) ++ ((chunks.map chunk_tokens).flatten) =
        ['N'] :: print_int n :: ((chunks.map chunk_tokens).flatten) from rfl]
    rw [parse_tokens_with_line n _]
    rw [parse_chunks_of_wf chunks hseq]
    rfl
  | false =>
    rcases hrest with hcon | hrest
    · cases hcon
    simp only [beq_iff_eq, Bool.and_eq_true] at hrest
    obtain ⟨hno, hfirst⟩ := hrest
    subst hno
    show parse_tokens (((if false then [['N'], print_int (-1)] else []) : List Tok) ++
      ((chunks.map chunk_tokens).flatten)) = _
    rw [if_neg (by simp)]
    rw [List.nil_append]
    cases chunks with
    | nil => simp at hfirst
    | cons c restc =>
      have hflat : (((c :: restc).map chunk_tokens).flatten) =
          chunk_tokens c ++ ((restc.map chunk_tokens).flatten) := by simp
      obtain ⟨t1, ts1, hts, _⟩ := chunk_tokens_head c
      have hslash : is_slash t1 = false ∧ t1 ≠ ['N'] := by
        cases c with
        | comment dl dr text =>
          have : chunk_tokens (chunk.comment dl dr text) = [dl :: text ++ [dr]] := rfl
          rw [this] at hts
          rw [List.cons.injEq] at hts
          obtain ⟨ht1, _⟩ := hts
          constructor
          · simp [is_slash, ← ht1]
          · rw [← ht1]
            simp
        | wordAddress w a =>
          have : chunk_tokens (chunk.wordAddress w a) = [[w], a.print] := rfl
          rw [this] at hts
          rw [List.cons.injEq] at hts
          obtain ⟨ht1, _⟩ := hts
          have hwf := wf_seq_head hseq
          have hw : w ∈ double_address_letters ++ int_address_letters := by
            simp only [wf_chunk] at hwf
            cases a with
            | intA _ => exact List.mem_append.mpr (Or.inr (mem_of_contains hwf))
            | dblA _ =>
              simp only [Bool.and_eq_true] at hwf
              exact List.mem_append.mpr (Or.inl (mem_of_contains hwf.1))
          obtain ⟨_, _, _, _, _, _, _, _, hslw⟩ := address_letter_facts w hw
          simp only [Bool.not_eq_true', beq_eq_false_iff_ne] at hfirst
          rw [← ht1]
          constructor
          · simp [is_slash, hslw]
          · simp [hfirst]
        | percent =>
          have : chunk_tokens chunk.percent = [['%']] := rfl
          rw [this] at hts
          rw [List.cons.injEq] at hts
          obtain ⟨ht1, _⟩ := hts
          rw [← ht1]
          exact ⟨rfl, by simp⟩
        | word w =>
          have : chunk_tokens (chunk.word w) = [[w]] := rfl
          rw [this] at hts
          rw [List.cons.injEq] at hts
          obtain ⟨ht1, _⟩ := hts
          simp only [Bool.and_eq_true, Bool.not_eq_true', beq_eq_false_iff_ne] at hfirst
          rw [← ht1]
          constructor
          · simp [is_slash, hfirst.1]
          · simp [hfirst.2]
      rw [show (((c :: restc).map chunk_tokens).flatten) =
          t1 :: (ts1 ++ ((restc.map chunk_tokens).flatten)) by simp [hts]]
      rw [parse_tokens_no_line t1 _ hslash.1 hslash.2]
      rw [show t1 :: (ts1 ++ ((restc.map chunk_tokens).flatten)) =
          (((c :: restc).map chunk_tokens).flatten) by simp [hts]]
      rw [parse_chunks_of_wf _ hseq]
      rfl

/-- Fail-fast per-line processing produces exactly one block per line of
positive length. -/
theorem lex_parse_lines_length :
    ∀ (lines : List (List Char)) (bs : List block), lex_parse_lines lines = .ok bs →
      bs.length = lines.countP (fun l => decide (0 < l.length)) := by
  intro lines
  induction lines with
  | nil =>
    intro bs h
    cases h
    rfl
  | cons l ls ih =>
    intro bs h
    unfold lex_parse_lines at h
    by_cases hl : l.length > 0
    · rw [if_pos hl] at h
      rw [List.countP_cons, if_pos (by simpa using hl)]
      split at h
      · cases h
      · split at h
        · cases h
        · split at h
          · cases h
          · rename_i bs' hbs'
            cases h
            simp [ih bs' hbs']
    · rw [if_neg hl] at h
      rw [List.countP_cons, if_neg (by simpa using hl)]
      simpa using ih bs h

/-- A line made only of whitespace characters lexes to no tokens. -/
theorem lex_block_all_space {line : List Char}
    (h : ∀ c ∈ line, isspace_c c = true) : lex_block line = .ok [] := by
  rw [lex_block_eq, List.dropWhile_eq_nil_iff.mpr h]

/-- Every member of a wellformed chunk sequence is a wellformed chunk. -/
theorem wf_seq_forall :
    ∀ (l : List chunk), wf_chunk_seq l = true → ∀ c ∈ l, wf_chunk c = true := by
  intro l
  induction l with
  | nil => intro _ c hc; cases hc
  | cons d rest ih =>
    intro h c hc
    rcases List.mem_cons.mp hc with hc | hc
    · subst hc; exact wf_seq_head h
    · exact ih (wf_seq_tail h) c hc

/-- No character of a wellformed chunk's printed text is a newline. -/
theorem chunk_print_no_newline (c : chunk) (h : wf_chunk c = true) :
    ∀ ch ∈ chunk.print c, ch ≠ '\n' := by
  cases c with
  | comment l r text =>
    simp only [wf_chunk, Bool.and_eq_true, Bool.or_eq_true, beq_iff_eq] at h
    obtain ⟨⟨hdel, _⟩, htext⟩ := h
    intro ch hch
    rcases List.mem_cons.mp hch with hch | hch
    · subst hch
      rcases hdel with ⟨h1, _⟩ | ⟨h1, _⟩ <;> subst h1 <;> decide
    · rcases List.mem_append.mp hch with hch | hch
      · have := List.all_eq_true.mp htext ch hch
        simpa using this
      · rw [List.mem_singleton] at hch
        subst hch
        rcases hdel with ⟨_, h2⟩ | ⟨_, h2⟩ <;> subst h2 <;> decide
  | wordAddress w a =>
    have hw : w ∈ double_address_letters ++ int_address_letters := by
      simp only [wf_chunk] at h
      cases a with
      | intA _ => exact List.mem_append.mpr (Or.inr (mem_of_contains h))
      | dblA _ =>
        simp only [Bool.and_eq_true] at h
        exact List.mem_append.mpr (Or.inl (mem_of_contains h.1))
    obtain ⟨_, hws, _⟩ := address_letter_facts w hw
    intro ch hch
    simp only [chunk.print, List.mem_cons] at hch
    rcases hch with hch | hch
    · subst hch
      intro hcon
      rw [hcon] at hws
      simp [isspace_c] at hws
    · intro hcon
      have := (addr_print_num a).2 ch hch
      rw [hcon] at this
      simp [is_num_char] at this
  | percent =>
    intro ch hch
    simp only [chunk.print, List.mem_singleton] at hch
    subst hch; decide
  | word c =>
    simp only [wf_chunk, Bool.and_eq_true, Bool.not_eq_true'] at h
    intro ch hch
    simp only [chunk.print, List.mem_singleton] at hch
    subst hch
    intro hcon
    rw [hcon] at h
    simp [isspace_c] at h

/-- No character of a wellformed block's printed line is a newline. -/
theorem print_block_no_newline (b : block) (h : ∀ c ∈ b.chunks, wf_chunk c = true) :
    ∀ ch ∈ b.print, (ch != '\n') = true := by
  intro ch hch
  unfold block.print at hch
  rcases List.mem_append.mp hch with hch | hch
  · by_cases hln : b.has_line_no = true
    · rw [hln, if_pos rfl] at hch
      rcases List.mem_cons.mp hch with hch | hch
      · subst hch; decide
      · rcases List.mem_append.mp hch with hch | hch
        · have := print_int_num_chars b.line_no ch hch
          simp only [bne_iff_ne, ne_eq]
          intro hcon
          rw [hcon] at this
          simp [is_num_char] at this
        · rw [List.mem_singleton] at hch
          subst hch; decide
    · rw [Bool.not_eq_true] at hln
      rw [hln] at hch
      simp at hch
  · obtain ⟨l0, hl0, hchl⟩ := List.mem_flatten.mp hch
    obtain ⟨c0, hc0, hc0e⟩ := List.mem_map.mp hl0
    subst hc0e
    rcases List.mem_append.mp hchl with hch2 | hch2
    · simpa using chunk_print_no_newline c0 (h c0 hc0) ch hch2
    · rw [List.mem_singleton] at hch2
      subst hch2; decide

/-- A wellformed block prints a nonempty line. -/
theorem print_block_ne_nil (b : block) (h : wf_block b = true) : b.print ≠ [] := by
  unfold block.print
  simp only [wf_block, Bool.and_eq_true, Bool.or_eq_true] at h
  obtain ⟨_, hrest⟩ := h
  by_cases hln : b.has_line_no = true
  · rw [hln, if_pos rfl]
    simp
  · rw [Bool.not_eq_true] at hln
    rw [hln]
    rcases hrest with hcon | hrest
    · rw [hln] at hcon; cases hcon
    obtain ⟨_, hfirst⟩ := hrest
    cases hchunks : b.chunks with
    | nil => rw [hchunks] at hfirst; simp at hfirst
    | cons c restc =>
      simp [chunk_print_ne_nil]

/-- The unfolding of `split_lines_cpp` on any nonempty text. -/
theorem split_lines_cpp_nonempty (str : List Char) (h : str ≠ []) :
    split_lines_cpp str = (str.takeWhile (fun x => x != '\n')) ::
      split_lines_cpp (str.drop ((str.takeWhile (fun x => x != '\n')).length + 1)) := by
  obtain ⟨c, cs, rfl⟩ := List.exists_cons_of_ne_nil h
  exact split_lines_cpp_eq c cs

/-- Splitting the printed program recovers exactly the printed lines. -/
theorem split_lines_print :
    ∀ (P : List block), (∀ b ∈ P, (∀ c ∈ b.chunks, wf_chunk c = true)) →
      split_lines_cpp (print_program P) = P.map block.print := by
  intro P
  induction P with
  | nil => intro _; rfl
  | cons b P' ih =>
    intro h
    have hb := h b (by simp)
    have hnl := print_block_no_newline b hb
    rw [show print_program (b :: P') = b.print ++ '\n' :: print_program P' by
      simp [print_program]]
    have hsplit := takeWhile_append_stop (fun x => x != '\n') b.print '\n'
      (print_program P') hnl (by decide)
    rw [split_lines_cpp_nonempty _ (by simp)]
    rw [hsplit.1]
    rw [show (b.print ++ '\n' :: print_program P').drop (b.print.length + 1) =
        print_program P' by
      rw [show b.print ++ '\n' :: print_program P' =
        (b.print ++ ['\n']) ++ print_program P' by simp]
      rw [show b.print.length + 1 = (b.print ++ ['\n']).length by simp]
      exact List.drop_left _ _]
    rw [ih (fun b' hb' => h b' (by simp [hb']))]
    rfl

/-- Lexing and parsing the printed lines of wellformed blocks recovers the
blocks with cleared deletion flags. -/
theorem lex_parse_print :
    ∀ (P : List block), (∀ b ∈ P, wf_block b = true) →
      lex_parse_lines (P.map block.print) = .ok (P.map unslash) := by
  intro P
  induction P with
  | nil => intro _; rfl
  | cons b P' ih =>
    intro h
    have hb := h b (by simp)
    have hchunks : ∀ c ∈ b.chunks, wf_chunk c = true :=
      wf_seq_forall b.chunks (by
        simp only [wf_block, Bool.and_eq_true] at hb
        exact hb.1)
    rw [show (b :: P').map block.print = b.print :: P'.map block.print from rfl]
    unfold lex_parse_lines
    rw [if_pos (by
      have := print_block_ne_nil b hb
      cases hbp : b.print with
      | nil => exact absurd hbp this
      | cons c0 cs0 => simp)]
    rw [lex_print_block b hchunks]
    dsimp only
    rw [parse_print_block b hb]
    dsimp only
    rw [ih (fun b' hb' => h b' (by simp [hb']))]
    rfl

/-- C1 (counterexample): the round-trip claim fails on the deletion flag.
`"/X1"` parses to a block with the deletion flag set; `block::print` emits
no `/`, so re-parsing the rendered program yields the same chunks and line
number but a cleared deletion flag — the block sequences differ in the
deletion-flag field. -/
theorem claim_C1_counterexample :
    parse_gcode ['/', 'X', '1'] =
      .ok [⟨false, -1, true, [.wordAddress 'X' (make_double_address 1)]⟩] ∧
    parse_gcode (print_program [⟨false, -1, true, [.wordAddress 'X' (make_double_address 1)]⟩]) =
      .ok [⟨false, -1, false, [.wordAddress 'X' (make_double_address 1)]⟩] ∧
    (⟨false, -1, true, [.wordAddress 'X' (make_double_address 1)]⟩ : block) ≠
      ⟨false, -1, false, [.wordAddress 'X' (make_double_address 1)]⟩ := by
  exact ⟨by decide, by decide, by decide⟩

/-- C1 (amended): rendering is a left inverse of parsing up to the deletion
flag, on wellformed parses.  If a program text parses successfully to
blocks `P` and `P` is wellformed for re-parsing (`wf_program`: balanced
comment texts with the two bracket pairs and no newline; word letters
classified with matching value kinds; every double value a finite decimal
in the faithful stream-format domain `fits_double_format` — at most six
significant digits and magnitude zero or in `[10 ^ (-4 : ℤ), 10 ^ 6)`,
exactly where the stream's six-significant-digit default formatting
prints the value's decimal unrounded and in fixed notation, whereas a
longer decimal is rounded and a magnitude outside the range is printed
with an exponent whose `e` the re-parse rejects; isolated words neither
at end of block nor before a numeric-initial chunk nor of special
characters; the line-number field `-1` whenever absent; and no unnumbered
block that is empty or starts with a `/` or `N` word), then re-parsing
the rendered text yields exactly `P` block for block, chunk for chunk and
in the line-number fields, with every deletion flag cleared — so the
entire block sequence round-trips exactly iff no block was slashed. -/
theorem claim_C1 (text : List Char) (P : List block)
    (hp : parse_gcode text = .ok P) (hwf : wf_program P = true) :
    parse_gcode (print_program P) = .ok (P.map unslash) := by
  have hall : ∀ b ∈ P, wf_block b = true := by
    intro b hb
    simpa using List.all_eq_true.mp hwf b hb
  show lex_parse_lines (split_lines_cpp (print_program P)) = _
  rw [split_lines_print P (fun b hb => wf_seq_forall b.chunks (by
    have := hall b hb
    simp only [wf_block, Bool.and_eq_true] at this
    exact this.1))]
  exact lex_parse_print P hall

/-- C1 (witness): a parsed program with line number, integer and double
word addresses and a comment is wellformed (the double `2.5` has two
significant digits and a fixed-notation magnitude, so it lies in the
faithful stream-format domain) and re-parses, after rendering, to itself
(its deletion flag was already clear). -/
theorem claim_C1_witness :
    parse_gcode "N1 G0 X2.5 (hi)".toList =
      .ok [⟨true, 1, false, [.wordAddress 'G' (make_int_address 0),
        .wordAddress 'X' (make_double_address (mkRat 5 2)),
        .comment '(' ')' "hi".toList]⟩] ∧
    wf_program [⟨true, 1, false, [.wordAddress 'G' (make_int_address 0),
        .wordAddress 'X' (make_double_address (mkRat 5 2)),
        .comment '(' ')' "hi".toList]⟩] = true ∧
    parse_gcode (print_program [⟨true, 1, false, [.wordAddress 'G' (make_int_address 0),
        .wordAddress 'X' (make_double_address (mkRat 5 2)),
        .comment '(' ')' "hi".toList]⟩]) =
      .ok ([⟨true, 1, false, [.wordAddress 'G' (make_int_address 0),
        .wordAddress 'X' (make_double_address (mkRat 5 2)),
        .comment '(' ')' "hi".toList]⟩].map unslash) :=
  ⟨by decide, by decide,
   claim_C1 "N1 G0 X2.5 (hi)".toList
     [⟨true, 1, false, [.wordAddress 'G' (make_int_address 0),
       .wordAddress 'X' (make_double_address (mkRat 5 2)),
       .comment '(' ')' "hi".toList]⟩] (by decide) (by decide)⟩

/-- C2 (counterexample): the classifier is not total over both cases of the
claimed double set — lowercase `e` (the lowercase form of `E`, which the
claim includes) is not classified, so `e9` fails with the unknown-letter
error instead of producing a double word address. -/
theorem claim_C2_counterexample :
    parse_address 'e' [['9']] = .err .unknownAddressLetter ∧
    parse_gcode ['e', '9'] = .err .unknownAddressLetter := by
  exact ⟨by decide, by decide⟩

/-- C2 (amended): the classifier covers both cases of
X Y Z A B C U V W I J K F R Q S and uppercase `E` (but not lowercase `e`)
as doubles, both cases of G H M N O T P D L as integers, and fails with
`UnknownAddressLetter` on every other character. -/
theorem claim_C2 :
    (∀ c, c ∈ (['X', 'x', 'Y', 'y', 'Z', 'z', 'A', 'a', 'B', 'b', 'C', 'c',
        'U', 'u', 'V', 'v', 'W', 'w', 'I', 'i', 'J', 'j', 'K', 'k',
        'F', 'f', 'R', 'r', 'Q', 'q', 'S', 's', 'E'] : List Char) →
      ∀ (t : Tok) (rest : List Tok) (v : ℚ), stod_model t = .ok v →
        parse_address c (t :: rest) = .ok (make_double_address v, rest)) ∧
    (∀ c, c ∈ (['G', 'g', 'H', 'h', 'M', 'm', 'N', 'n', 'O', 'o',
        'T', 't', 'P', 'p', 'D', 'd', 'L', 'l'] : List Char) →
      ∀ (t : Tok) (rest : List Tok) (v : ℤ), stoi_model t = .ok v →
        parse_address c (t :: rest) = .ok (make_int_address v, rest)) ∧
    (∀ c, double_address_letters.contains c = false →
      int_address_letters.contains c = false →
      ∀ toks, parse_address c toks = .err .unknownAddressLetter) := by
  refine ⟨?_, ?_, ?_⟩
  · intro c hc t rest v hv
    refine parse_address_dbl ?_ hv rest
    fin_cases hc <;> decide
  · intro c hc t rest v hv
    refine parse_address_int ?_ ?_ hv rest <;> (fin_cases hc <;> decide)
  · intro c h1 h2 toks
    exact parse_address_unknown h1 h2 toks

/-- C2 (witness): the amended classification at concrete inputs. -/
theorem claim_C2_witness :
    parse_address 'X' [['1']] = .ok (make_double_address 1, []) ∧
    parse_address 'g' [['2']] = .ok (make_int_address 2, []) ∧
    parse_address '=' [['3']] = .err .unknownAddressLetter :=
  ⟨claim_C2.1 'X' (by decide) ['1'] [] 1 (by decide),
   claim_C2.2.1 'g' (by decide) ['2'] [] 2 (by decide),
   claim_C2.2.2 '=' (by decide) (by decide) [['3']]⟩

/-- C3 (counterexample): parsing the line `K9` does not surface
`UnknownAddressLetter` — `K` is in the classified double set, so the parse
succeeds with a double-typed word address `K 9.0`. -/
theorem claim_C3_counterexample :
    parse_gcode ['K', '9'] =
      .ok [⟨false, -1, false, [.wordAddress 'K' (make_double_address 9)]⟩] := by
  decide

/-- C3 (amended): `K` is classified (double), so `"K9"` parses successfully
to a double-typed word address; a genuinely unclassified letter such as
lowercase `e` surfaces `UnknownAddressLetter` rather than succeeding
silently. -/
theorem claim_C3 :
    parse_gcode ['K', '9'] =
      .ok [⟨false, -1, false, [.wordAddress 'K' (make_double_address 9)]⟩] ∧
    parse_gcode ['e', '9'] = .err .unknownAddressLetter := by
  exact ⟨by decide, by decide⟩

/-- C4: nested parenthesis comments.  Concretely, `"(outer (inner) end)"`
lexes to one token spanning the whole string and parses to one comment
chunk with delimiters `(`/`)` and text `"outer (inner) end"`.  Generally,
lexing from `(` over a balanced body emits one token spanning the full
comment including both delimiters, and an unbalanced scan (depth never
returning to zero) runs to the end of the stream. -/
theorem claim_C4 :
    (lex_block "(outer (inner) end)".toList = .ok ["(outer (inner) end)".toList]) ∧
    (parse_tokens ["(outer (inner) end)".toList] =
      .ok ⟨false, -1, false, [.comment '(' ')' "outer (inner) end".toList]⟩) ∧
    (∀ (t rest : List Char), closes_at '(' ')' 1 t = true →
      lex_token ('(' :: (t ++ ')' :: rest)) = .ok ('(' :: t ++ [')'], rest)) ∧
    (∀ (cs : List Char) (d : ℤ), stays_pos '(' ')' d cs = true →
      parse_comment_with_delimiters '(' ')' d cs = (cs, [])) :=
  ⟨by decide, by decide,
   fun t rest h => lex_token_comment_paren t rest h,
   fun cs d h => pcwd_run_to_end '(' ')' cs d h⟩

/-- C4 (witness): the general comment-lexing parts of C4 at concrete
inputs — the balanced body of the example, and an unbalanced line that runs
to the end of the stream. -/
theorem claim_C4_witness :
    closes_at '(' ')' 1 "outer (inner) end".toList = true ∧
    lex_token ('(' :: ("outer (inner) end".toList ++ ')' :: [])) =
      .ok ('(' :: "outer (inner) end".toList ++ [')'], []) ∧
    stays_pos '(' ')' 0 "(a(b".toList = true ∧
    parse_comment_with_delimiters '(' ')' 0 "(a(b".toList = ("(a(b".toList, []) :=
  ⟨by decide,
   claim_C4.2.2.1 "outer (inner) end".toList [] (by decide),
   by decide,
   claim_C4.2.2.2 "(a(b".toList 0 (by decide)⟩

/-- C6: `"/N5 G1 X1"` parses to one block with deletion flag true, line
number present and equal to 5, and exactly the two word-address chunks
`G` (integer 1) and `X` (double 1.0). -/
theorem claim_C6 :
    parse_gcode ['/', 'N', '5', ' ', 'G', '1', ' ', 'X', '1'] =
      .ok [⟨true, 5, true, [.wordAddress 'G' (make_int_address 1),
        .wordAddress 'X' (make_double_address 1)]⟩] := by
  decide

/-- C7: in the default branch of `parse_chunk` (current token not a
`[`- or `(`-initial comment token, not `%`, not `;`), the one-token
lookahead needs a following token; with a single remaining token the access
is out of bounds in the source and the model returns the designed
`UnexpectedToken` error — a trailing bare letter never parses to a chunk. -/
theorem claim_C7 (t : Tok) (h1 : t.headD '\x00' ≠ '[') (h2 : t.headD '\x00' ≠ '(')
    (h3 : t ≠ ['%']) (h4 : t ≠ [';']) :
    parse_chunk t [] = .err .unexpectedToken := by
  unfold parse_chunk
  rw [if_neg h1, if_neg h2, if_neg h3, if_neg h4]

/-- C7 (witness): a bare `G` with nothing following it. -/
theorem claim_C7_witness : parse_chunk ['G'] [] = .err .unexpectedToken :=
  claim_C7 ['G'] (by decide) (by decide) (by decide) (by decide)

/-- C8: the address tag is fixed at construction: the factories produce the
matching tag, the matching accessor returns exactly the constructed value,
the wrong-typed accessor is the `TypeMismatch` contract violation, and
whenever the tag matches, the accessor's failure branch is unreachable. -/
theorem claim_C8 :
    (∀ i : ℤ, (make_int_address i).tp = .integer ∧
      (make_int_address i).int_value = .ok i ∧
      (make_int_address i).double_value = .err .typeMismatch) ∧
    (∀ d : ℚ, (make_double_address d).tp = .double ∧
      (make_double_address d).double_value = .ok d ∧
      (make_double_address d).int_value = .err .typeMismatch) ∧
    (∀ a : addr, a.tp = .integer → ∃ i : ℤ, a.int_value = .ok i) ∧
    (∀ a : addr, a.tp = .double → ∃ d : ℚ, a.double_value = .ok d) := by
  refine ⟨fun i => ⟨rfl, rfl, rfl⟩, fun d => ⟨rfl, rfl, rfl⟩, fun a h => ?_, fun a h => ?_⟩
  · cases a with
    | intA i => exact ⟨i, rfl⟩
    | dblA d => simp [addr.tp] at h
  · cases a with
    | intA i => simp [addr.tp] at h
    | dblA d => exact ⟨d, rfl⟩

/-- C8 (witness): the matching-tag accessors succeed at concrete
addresses. -/
theorem claim_C8_witness :
    (make_int_address 7).tp = .integer ∧
    (∃ i : ℤ, (make_int_address 7).int_value = .ok i) ∧
    (make_double_address (mkRat 5 2)).tp = .double ∧
    (∃ d : ℚ, (make_double_address (mkRat 5 2)).double_value = .ok d) :=
  ⟨rfl, claim_C8.2.2.1 (make_int_address 7) rfl, rfl,
   claim_C8.2.2.2 (make_double_address (mkRat 5 2)) rfl⟩

/-- C10: `block::print` never reads the deletion flag — two blocks that
agree on the line-number fields and the chunks render identically whatever
their deletion flags; the `/` marker never appears in rendered text. -/
theorem claim_C10 (h : Bool) (n : ℤ) (ch : List chunk) (s1 s2 : Bool) :
    block.print ⟨h, n, s1, ch⟩ = block.print ⟨h, n, s2, ch⟩ := rfl

/-- C5: blank lines never produce a block — when the parse succeeds, the
number of blocks equals the number of nonzero-length source lines (blocks
are emitted in line order by construction of `lex_gprog`). -/
theorem claim_C5 (text : List Char) (P : List block) (h : parse_gcode text = .ok P) :
    P.length = (split_lines_cpp text).countP (fun l => decide (0 < l.length)) :=
  lex_parse_lines_length (split_lines_cpp text) P h

/-- C5 (witness): a text of two percent lines around one blank line parses
to exactly two blocks. -/
theorem claim_C5_witness :
    ([⟨false, -1, false, [.percent]⟩, ⟨false, -1, false, [.percent]⟩] : List block).length =
      (split_lines_cpp "%\n\n%".toList).countP (fun l => decide (0 < l.length)) :=
  claim_C5 "%\n\n%".toList
    [⟨false, -1, false, [.percent]⟩, ⟨false, -1, false, [.percent]⟩] (by decide)

/-- C9: a nonempty line consisting only of spaces, tabs and carriage
returns is not dropped — it lexes to an empty token sequence and parses to
a block with no chunks, deletion flag false and no line number, which is
added to the program. -/
theorem claim_C9 (line : List Char) (h1 : line ≠ [])
    (h2 : ∀ c ∈ line, c = ' ' ∨ c = '\t' ∨ c = '\r') :
    lex_block line = .ok [] ∧
    parse_tokens [] = .ok ⟨false, -1, false, []⟩ ∧
    parse_gcode line = .ok [⟨false, -1, false, []⟩] := by
  have hsp : ∀ c ∈ line, isspace_c c = true := by
    intro c hc
    rcases h2 c hc with h | h | h <;> simp [h, isspace_c]
  have hlex : lex_block line = .ok [] := lex_block_all_space hsp
  refine ⟨hlex, rfl, ?_⟩
  have hnotnl : ∀ c ∈ line, (c != '\n') = true := by
    intro c hc
    rcases h2 c hc with h | h | h <;> simp [h]
  have htake : line.takeWhile (fun x => x != '\n') = line :=
    List.takeWhile_eq_self_iff.mpr hnotnl
  cases line with
  | nil => exact absurd rfl h1
  | cons c cs =>
    show lex_parse_lines (split_lines_cpp (c :: cs)) = _
    rw [split_lines_cpp_eq, htake]
    rw [show (c :: cs).drop ((c :: cs).length + 1) = [] from by simp]
    unfold lex_parse_lines
    rw [if_pos (by simp)]
    rw [hlex]
    rfl

/-- C9 (witness): the space-tab line. -/
theorem claim_C9_witness :
    lex_block [' ', '\t'] = .ok [] ∧
    parse_tokens [] = .ok ⟨false, -1, false, []⟩ ∧
    parse_gcode [' ', '\t'] = .ok [⟨false, -1, false, []⟩] :=
  claim_C9 [' ', '\t'] (by decide) (by decide)

end gpr
